/-
  Verification of the markdown normalization and image-relinking pipeline of
  the Docmost markdown converter.

  Shallow embedding: strings are `List Char`; each Python regex substitution
  of the source is translated into a recursive function with the exact
  leftmost, non-overlapping, greedy/non-greedy and backtracking semantics of
  the concrete pattern (verified against CPython's `re`).  Python stdlib
  calls (`html.unescape`, `base64.b64decode`, `str.strip`) are modelled on
  the ASCII fragment the repository exercises; each model carries a doc
  comment stating its scope.
-/
import Mathlib

namespace Docmost

/-- Convert a string literal to the character-list representation. -/
def chars (s : String) : List Char := s.data

/-- Python `str.strip()` whitespace set restricted to ASCII:
space, tab, newline, carriage return, vertical tab, form feed.
This is also exactly the set matched by the regex class backslash-s
for ASCII characters. -/
def isPyWs (c : Char) : Bool :=
  c = ' ' || c = '\t' || c = '\n' || c = '\r' || c = Char.ofNat 11 || c = Char.ofNat 12

/-- Left part of Python `str.strip()`. -/
def lstrip (l : List Char) : List Char := l.dropWhile isPyWs

/-- Right part of Python `str.strip()`. -/
def rstrip (l : List Char) : List Char := (l.reverse.dropWhile isPyWs).reverse

/-- Model of Python `str.strip()` (ASCII whitespace). -/
def pyStrip (l : List Char) : List Char := rstrip (lstrip l)

/-- Python `str.split` at newline: always at least one (possibly empty) line. -/
def splitNL : List Char → List (List Char)
  | [] => [[]]
  | '\n' :: rest => [] :: splitNL rest
  | c :: rest =>
    match splitNL rest with
    | [] => [[c]]
    | l :: ls => (c :: l) :: ls

/-- Python `'\n'.join`. -/
def joinNL : List (List Char) → List Char
  | [] => []
  | [l] => l
  | l :: ls => l ++ '\n' :: joinNL ls

/-- Decimal digit characters (the regex digit class on the ASCII inputs used here). -/
def isDigitCh (c : Char) : Bool := '0' ≤ c && c ≤ '9'

/-- Numeric value of a nonempty digit run, as Python `int` reads it. -/
def decVal (ds : List Char) : Nat := ds.foldl (fun a c => a * 10 + (c.toNat - 48)) 0

/-- Digit character for a value below ten. -/
def digitCh (n : Nat) : Char := Char.ofNat (48 + n)

def natLitAux : Nat → Nat → List Char
  | 0, _ => []
  | fuel + 1, n =>
    if n < 10 then [digitCh n]
    else natLitAux fuel (n / 10) ++ [digitCh (n % 10)]

/-- Decimal rendering of a natural number, as Python string formatting emits it. -/
def natLit (n : Nat) : List Char := natLitAux (n + 1) n

/-- Does `s` contain `pat` as a contiguous substring? -/
def containsSub : List Char → List Char → Bool
  | [], pat => pat.isEmpty
  | c :: rest, pat => pat.isPrefixOf (c :: rest) || containsSub rest pat

theorem dropWhile_length_le (p : Char → Bool) (l : List Char) :
    (l.dropWhile p).length ≤ l.length := by
  induction l with
  | nil => simp [List.dropWhile]
  | cons a l ih =>
    by_cases h : p a
    · simp only [List.dropWhile_cons, h, if_true, List.length_cons]
      omega
    · simp [List.dropWhile_cons, h]

/-! ## Stage 1: frontmatter stripping

Source: `re.sub(r'^---\n.*?\n---\n', '', md_content, flags=re.DOTALL)`.
Anchored at position 0 (no MULTILINE), non-greedy body: the match ends at the
earliest later occurrence of newline dash dash dash newline. -/

/-- Scan for the earliest closing delimiter of the frontmatter and
return the remainder after it. -/
def dropAfterFmClose : List Char → Option (List Char)
  | '\n' :: '-' :: '-' :: '-' :: '\n' :: rest => some rest
  | _ :: rest => dropAfterFmClose rest
  | [] => none

def stripFrontmatter (md : List Char) : List Char :=
  match md with
  | '-' :: '-' :: '-' :: '\n' :: rest =>
    match dropAfterFmClose rest with
    | some r => r
    | none => md
  | _ => md

/-! ## Stage 2: HTML comment stripping

Source: `re.sub(r'<!--.*?-->', '', md_content, flags=re.DOTALL)`.
Global, leftmost, non-greedy: each opener is closed by the earliest
following `-->`; scanning resumes after the match. -/

/-- Characters consumed up to and including the earliest `-->`. -/
def findCommentClose : List Char → Option Nat
  | '-' :: '-' :: '>' :: _ => some 3
  | _ :: rest => (findCommentClose rest).map (· + 1)
  | [] => none

def stripCommentsGo : Nat → List Char → List Char
  | 0, l => l
  | fuel + 1, '<' :: '!' :: '-' :: '-' :: rest =>
    match findCommentClose rest with
    | some n => stripCommentsGo fuel (rest.drop n)
    | none => '<' :: stripCommentsGo fuel ('!' :: '-' :: '-' :: rest)
  | fuel + 1, c :: rest => c :: stripCommentsGo fuel rest
  | _ + 1, [] => []

def stripComments (l : List Char) : List Char := stripCommentsGo l.length l

/-! ## Stage 3: blank-line collapsing

Source: `re.sub(r'\n{3,}', '\n\n', md_content)`.  Greedy: a maximal run of
three or more newlines becomes exactly two. -/

def collapseNewlinesGo : Nat → List Char → List Char
  | 0, l => l
  | fuel + 1, '\n' :: '\n' :: '\n' :: rest =>
    '\n' :: '\n' :: collapseNewlinesGo fuel (rest.dropWhile (· = '\n'))
  | fuel + 1, c :: rest => c :: collapseNewlinesGo fuel rest
  | _ + 1, [] => []

def collapseNewlines (l : List Char) : List Char := collapseNewlinesGo l.length l

/-! ## Stage 4: header spacing

Source: `re.sub(r'^(#+)([^ \n])', r'\1 \2', md_content, flags=re.MULTILINE)`.
One substitution per line.  The greedy hash-run group backtracks: on a line
of hashes followed by a space (or end of line) the group gives up its last
hash so the second group can match it; thus `## x` becomes `# # x`
(behaviour confirmed against CPython). -/

def fixHeaderLine (l : List Char) : List Char :=
  let k := (l.takeWhile (· = '#')).length
  let rest := l.drop k
  if k = 0 then l
  else
    match rest with
    | [] => if 2 ≤ k then List.replicate (k - 1) '#' ++ [' ', '#'] else l
    | c :: _ =>
      if c = ' ' then
        if 2 ≤ k then List.replicate (k - 1) '#' ++ ' ' :: '#' :: rest else l
      else List.replicate k '#' ++ ' ' :: rest

def fixHeaders (md : List Char) : List Char :=
  joinNL ((splitNL md).map fixHeaderLine)

/-! ## Stage 5: structural tag stripping

Source: `re.sub(r'</?(div|span|html|body|head|script|style|iframe|link|meta).*?>', '',
md_content, flags=re.IGNORECASE)`.  No DOTALL: the non-greedy tail may not
cross a newline.  The ten tag words are pairwise non-prefix, so at most one
alternative can match at a given position. -/

def asciiLower (c : Char) : Char :=
  if 'A' ≤ c && c ≤ 'Z' then Char.ofNat (c.toNat + 32) else c

def tagWords : List (List Char) :=
  [chars "div", chars "span", chars "html", chars "body", chars "head",
   chars "script", chars "style", chars "iframe", chars "link", chars "meta"]

/-- Case-insensitive literal word match; returns the number of characters consumed. -/
def matchWordCI : List Char → List Char → Option Nat
  | [], _ => some 0
  | _ :: _, [] => none
  | w :: ws, c :: cs =>
    if asciiLower c = w then (matchWordCI ws cs).map (· + 1) else none

/-- Characters consumed up to and including the earliest `>` on the current line. -/
def findGt : List Char → Option Nat
  | '>' :: _ => some 1
  | '\n' :: _ => none
  | _ :: rest => (findGt rest).map (· + 1)
  | [] => none

def tryTagWords : List (List Char) → List Char → Option Nat
  | [], _ => none
  | w :: ws, cs =>
    match matchWordCI w cs with
    | some n => (findGt (cs.drop n)).map (n + ·)
    | none => tryTagWords ws cs

/-- Attempt to match the tag body after an opening `<`; returns characters
consumed after the `<` (through the closing `>`). -/
def tryTag (cs : List Char) : Option Nat :=
  match cs with
  | '/' :: t => (tryTagWords tagWords t).map (· + 1)
  | _ => tryTagWords tagWords cs

def stripTagsGo : Nat → List Char → List Char
  | 0, l => l
  | fuel + 1, '<' :: rest =>
    match tryTag rest with
    | some n => stripTagsGo fuel (rest.drop n)
    | none => '<' :: stripTagsGo fuel rest
  | fuel + 1, c :: rest => c :: stripTagsGo fuel rest
  | _ + 1, [] => []

def stripTags (l : List Char) : List Char := stripTagsGo l.length l

/-! ## Stage 6: HTML entity unescaping

Source: `html.unescape(md_content)` (Python stdlib).  Modelled from the
CPython implementation: the scanner regex
`&(#[0-9]+;?|#[xX][0-9a-fA-F]+;?|[^\t\n\f <&#;]-run of at most 32;?)`
with named-reference lookup falling back to the longest table prefix of
length at least 2.  The named-entity table is restricted here to the common
references amp, lt, gt, quot (each also valid without the trailing
semicolon, as in the HTML5 table) and apos (semicolon required); the full
HTML5 table and the CP1252 numeric remappings are stdlib data outside this
repository and are not needed by any input handled below. -/

def isHexDigitCh (c : Char) : Bool :=
  isDigitCh c || ('a' ≤ c && c ≤ 'f') || ('A' ≤ c && c ≤ 'F')

def hexDigitVal (c : Char) : Nat :=
  if isDigitCh c then c.toNat - 48
  else if 'a' ≤ c && c ≤ 'f' then c.toNat - 87
  else c.toNat - 55

def hexVal (ds : List Char) : Nat := ds.foldl (fun a c => a * 16 + hexDigitVal c) 0

/-- Character produced by a numeric character reference. -/
def numCharRef (n : Nat) : Char :=
  if n ≠ 0 ∧ Nat.isValidChar n then Char.ofNat n else Char.ofNat 0xFFFD

/-- Characters allowed inside a named character reference by the scanner. -/
def isEntNameChar (c : Char) : Bool :=
  !(c = '\t' || c = '\n' || c = Char.ofNat 12 || c = ' ' || c = '<' || c = '&' ||
    c = '#' || c = ';')

def entityTable : List (List Char × List Char) :=
  [(chars "amp;", chars "&"), (chars "amp", chars "&"),
   (chars "lt;", chars "<"), (chars "lt", chars "<"),
   (chars "gt;", chars ">"), (chars "gt", chars ">"),
   (chars "quot;", [Char.ofNat 34]), (chars "quot", [Char.ofNat 34]),
   (chars "apos;", [Char.ofNat 39])]

def entLookup (s : List Char) : Option (List Char) :=
  (entityTable.find? (fun p => p.1 = s)).map (·.2)

/-- Longest table prefix of length at least 2, as CPython's fallback does. -/
def entPrefixLookup (s : List Char) : Nat → Option (List Char)
  | 0 => none
  | 1 => none
  | Nat.succ k =>
    match entLookup (s.take (Nat.succ k)) with
    | some v => some (v ++ s.drop (Nat.succ k))
    | none => entPrefixLookup s k

/-- One character-reference step at a position just after `&`:
returns the replacement text and the number of characters consumed. -/
def charref (rest : List Char) : Option (List Char × Nat) :=
  match rest with
  | '#' :: t =>
    match t with
    | 'x' :: h =>
      let ds := h.takeWhile isHexDigitCh
      if ds = [] then none
      else
        let semi := if (h.drop ds.length).take 1 = [';'] then 1 else 0
        some ([numCharRef (hexVal ds)], 2 + ds.length + semi)
    | 'X' :: h =>
      let ds := h.takeWhile isHexDigitCh
      if ds = [] then none
      else
        let semi := if (h.drop ds.length).take 1 = [';'] then 1 else 0
        some ([numCharRef (hexVal ds)], 2 + ds.length + semi)
    | _ =>
      let ds := t.takeWhile isDigitCh
      if ds = [] then none
      else
        let semi := if (t.drop ds.length).take 1 = [';'] then 1 else 0
        some ([numCharRef (decVal ds)], 1 + ds.length + semi)
  | _ =>
    let r := (rest.takeWhile isEntNameChar).take 32
    if r = [] then none
    else
      let hasSemi := (rest.drop r.length).take 1 = [';']
      let s := r ++ if hasSemi then [';'] else []
      match entLookup s with
      | some v => some (v, s.length)
      | none => (entPrefixLookup s (s.length - 1)).map (fun v => (v, s.length))

def unescapeHtmlGo : Nat → List Char → List Char
  | 0, l => l
  | fuel + 1, '&' :: rest =>
    match charref rest with
    | some (repl, n) => repl ++ unescapeHtmlGo fuel (rest.drop n)
    | none => '&' :: unescapeHtmlGo fuel rest
  | fuel + 1, c :: rest => c :: unescapeHtmlGo fuel rest
  | _ + 1, [] => []

def unescapeHtml (l : List Char) : List Char := unescapeHtmlGo l.length l

/-! ## Stage 7: blank line before images

Source: `re.sub(r'([^\n])\n!\[', r'\1\n\n![', md_content)`.  Scanning
resumes after the consumed `![`, so a line consisting of exactly `![`
cannot also provide the leading character of the next match. -/

def imageBlankLines : List Char → List Char
  | c :: '\n' :: '!' :: '[' :: rest =>
    if c = '\n' then c :: imageBlankLines ('\n' :: '!' :: '[' :: rest)
    else c :: '\n' :: '\n' :: '!' :: '[' :: imageBlankLines rest
  | c :: rest => c :: imageBlankLines rest
  | [] => []

/-! ## Stage 8: title injection

Source lines 49–53 of `app/utils.py`: when a truthy title is given and the
first line of the stripped document does not *start with* hash-space-title,
prepend that header and a blank line. -/

def titleStage (title : Option (List Char)) (md : List Char) : List Char :=
  match title with
  | none => md
  | some t =>
    if t = [] then md
    else
      let firstLine := (pyStrip md).takeWhile (· ≠ '\n')
      if ('#' :: ' ' :: t).isPrefixOf firstLine then md
      else '#' :: ' ' :: t ++ '\n' :: '\n' :: md

/-! ## Stage 9: ordered-list renumbering

Source lines 58–94 of `app/utils.py`: single pass over the lines with one
counter starting at 0; `re.match(r'^(\d+)\.\s(.*)', line)` recognises a
list item; a literal 1 continues the current sequence, any other number is
taken as authoritative; a non-item line whose stripped text starts with a
hash resets the counter. -/

def parseItem (l : List Char) : Option (Nat × List Char) :=
  let ds := l.takeWhile isDigitCh
  if ds = [] then none
  else
    match l.drop ds.length with
    | '.' :: c :: rest => if isPyWs c then some (decVal ds, rest) else none
    | _ => none

def renumStep (counter : Nat) (l : List Char) : Nat × List Char :=
  match parseItem l with
  | some (n, r) =>
    let c' := if n = 1 then counter + 1 else n
    (c', natLit c' ++ '.' :: ' ' :: r)
  | none => (if (pyStrip l).take 1 = ['#'] then 0 else counter, l)

def renumAux : Nat → List (List Char) → List (List Char)
  | _, [] => []
  | c, l :: ls =>
    let s := renumStep c l
    s.2 :: renumAux s.1 ls

def renumber (md : List Char) : List Char :=
  joinNL (renumAux 0 (splitNL md))

/-- Stages 1–7 of `clean_markdown` (everything before title injection). -/
def preTitle (md : List Char) : List Char :=
  imageBlankLines (unescapeHtml (stripTags (fixHeaders
    (collapseNewlines (stripComments (stripFrontmatter md))))))

/-- `clean_markdown` of `app/utils.py`: the full normalization pipeline. -/
def cleanMarkdown (md : List Char) (title : Option (List Char)) : List Char :=
  pyStrip (renumber (titleStage title (preTitle md)))

/-! ## Inline data-URI image extraction

Source: `create_docmost_zip` of `app/utils.py`, pattern
`!\[(.*?)\]\(data:(image/[a-zA-Z]+);base64,(.*?)\)` substituted by the
stateful `replace_data_uri`.  The non-greedy alt group may not cross a
newline but backtracks over `]`; the mime letters are greedy; the
non-greedy payload ends at the first `)` on the same line. -/

def asciiAlpha (c : Char) : Bool :=
  ('a' ≤ c && c ≤ 'z') || ('A' ≤ c && c ≤ 'Z')

/-- Payload scan for the non-greedy tail through the closing parenthesis:
payload characters and total consumed (including the parenthesis). -/
def scanPayload : List Char → Option (List Char × Nat)
  | [] => none
  | c :: rest =>
    if c = ')' then some ([], 1)
    else if c = '\n' then none
    else (scanPayload rest).map (fun p => (c :: p.1, p.2 + 1))

/-- Try to close the alt group here: parse
`](data:image/<letters>;base64,<payload>)` and return mime, payload and
characters consumed. -/
def parseDataClose (cs : List Char) : Option (List Char × List Char × Nat) :=
  if (chars "](data:image/").isPrefixOf cs then
    let t := cs.drop 13
    let letters := t.takeWhile asciiAlpha
    if letters = [] then none
    else
      let t2 := t.drop letters.length
      if (chars ";base64,").isPrefixOf t2 then
        (scanPayload (t2.drop 8)).map (fun p =>
          (chars "image/" ++ letters, p.1, 13 + letters.length + 8 + p.2))
      else none
  else none

/-- Non-greedy alt search: shortest alt (no newline) whose closing
delimiter parses; returns alt, mime, payload, consumed from this position. -/
def tryAltData : List Char → Option (List Char × List Char × List Char × Nat)
  | [] => none
  | c :: rest =>
    match parseDataClose (c :: rest) with
    | some (m, p, n) => some ([], m, p, n)
    | none =>
      if c = '\n' then none
      else (tryAltData rest).map (fun r => (c :: r.1, r.2.1, r.2.2.1, r.2.2.2 + 1))

/-- Full pattern match at the current position. -/
def dataUriMatchAt (cs : List Char) : Option (List Char × List Char × List Char × Nat) :=
  match cs with
  | '!' :: '[' :: rest =>
    (tryAltData rest).map (fun r => (r.1, r.2.1, r.2.2.1, r.2.2.2 + 2))
  | _ => none

/-- Extension choice of `replace_data_uri` (substring tests on the mime). -/
def extOf (mime : List Char) : List Char :=
  if containsSub mime (chars "jpeg") || containsSub mime (chars "jpg") then chars "jpg"
  else if containsSub mime (chars "gif") then chars "gif"
  else if containsSub mime (chars "webp") then chars "webp"
  else chars "png"

/-! ### Base64 decoding

Model of Python `base64.b64decode` (stdlib, default non-validating mode,
verified against CPython): non-ASCII input raises; characters outside the
alphabet are discarded; remaining characters are decoded in groups of
four; a group carrying padding ends the decode (trailing data is
ignored); a leftover group of one to three characters or misplaced
padding raises (returns `none` here). -/

def isB64Char (c : Char) : Bool :=
  asciiAlpha c || isDigitCh c || c = '+' || c = '/'

def b64Val (c : Char) : Nat :=
  if 'A' ≤ c && c ≤ 'Z' then c.toNat - 65
  else if 'a' ≤ c && c ≤ 'z' then c.toNat - 71
  else if isDigitCh c then c.toNat + 4
  else if c = '+' then 62
  else 63

def decodeQuads : List Char → Option (List Nat)
  | [] => some []
  | a :: b :: c :: d :: rest =>
    if a = '=' || b = '=' then none
    else if c = '=' then
      if d = '=' then some [b64Val a * 4 + b64Val b / 16] else none
    else if d = '=' then
      some [b64Val a * 4 + b64Val b / 16, (b64Val b % 16) * 16 + b64Val c / 4]
    else
      (decodeQuads rest).map (fun bs =>
        let n := b64Val a * 262144 + b64Val b * 4096 + b64Val c * 64 + b64Val d
        n / 65536 :: n / 256 % 256 :: n % 256 :: bs)
  | _ => none

def b64decode (s : List Char) : Option (List Nat) :=
  if s.all (fun c => c.toNat < 128) then
    decodeQuads (s.filter (fun c => isB64Char c || c = '='))
  else none

/-- Zero-padded index as Python `03d` formatting renders it. -/
def pad3 (n : Nat) : List Char :=
  let r := natLit n
  List.replicate (3 - r.length) '0' ++ r

/-- Canonical image filename `image_NNN.ext`. -/
def imageName (i : Nat) (ext : List Char) : List Char :=
  chars "image_" ++ pad3 i ++ '.' :: ext

/-- The data-URI substitution pass of `create_docmost_zip`: rewritten
markdown together with the decoded images, with the shared counter
starting from `idx`. -/
def extractGo : Nat → Nat → List Char → List Char × List (List Char × List Nat)
  | 0, _, l => (l, [])
  | fuel + 1, idx, cs =>
    match cs with
    | [] => ([], [])
    | c :: rest =>
      match dataUriMatchAt cs with
      | some (alt, mime, payload, n) =>
        let idx' := idx + 1
        let fname := imageName idx' (extOf mime)
        let r := extractGo fuel idx' (cs.drop n)
        match b64decode payload with
        | some bytes =>
          (chars "![" ++ alt ++ chars "](images/" ++ fname ++ ')' :: r.1,
           (fname, bytes) :: r.2)
        | none =>
          (chars "![" ++ alt ++ chars "](MISSING_IMAGE)" ++ r.1, r.2)
      | none =>
        let r := extractGo fuel idx rest
        (c :: r.1, r.2)

def extractDataUris (idx : Nat) (md : List Char) : List Char × List (List Char × List Nat) :=
  extractGo md.length idx md

/-- The markdown and image set produced by `create_docmost_zip`:
the passed-images loop only advances the counter, then data URIs are
extracted and the result is normalized.  (The surrounding ZIP container is
represented by its entry list, below.) -/
def createDocmost (md : List Char) (imagesCount : Nat) (title : Option (List Char)) :
    List Char × List (List Char × List Nat) :=
  let r := extractDataUris imagesCount md
  (cleanMarkdown r.1 title, r.2)

/-- Entry names written into the ZIP by `create_docmost_zip`. -/
def docmostZipNames (md : List Char) (imagesCount : Nat) (title : Option (List Char)) :
    List (List Char) :=
  chars "document.md" :: (createDocmost md imagesCount title).2.map
    (fun p => chars "images/" ++ p.1)

/-! ## Image relinking

Source: `process_chunk` of `src/main.py`, lines 154–157: for each map
entry, `re.sub(r'(!\[.*?\])\(.*?' + re.escape(original) + r'\)',
r'\1(' + new_rel_path + ')', markdown)`.  The URL part is matched by a
non-greedy tail that must end with the original name immediately followed
by a closing parenthesis. -/

/-- Non-greedy URL scan: characters consumed through `orig` and the
closing parenthesis, failing at a newline. -/
def scanUrl (orig : List Char) : List Char → Option Nat
  | [] => if (orig ++ [')']).isPrefixOf ([] : List Char) then some (orig.length + 1) else none
  | c :: rest =>
    if (orig ++ [')']).isPrefixOf (c :: rest) then some (orig.length + 1)
    else if c = '\n' then none
    else (scanUrl orig rest).map (· + 1)

/-- Try to close the relink alt group here: a bracket-parenthesis pair
followed by a successful URL scan. -/
def parseRelinkClose (orig : List Char) : List Char → Option Nat
  | ']' :: '(' :: t => (scanUrl orig t).map (2 + ·)
  | _ => none

/-- Non-greedy alt search for the relink pattern: at each position first try
to close the group with a bracket-parenthesis pair whose URL scan succeeds,
otherwise extend the alt text (backtracking over the bracket as CPython
does when the URL scan fails). -/
def tryAltRelink (orig : List Char) : List Char → Option (List Char × Nat)
  | [] => none
  | c :: rest =>
    match parseRelinkClose orig (c :: rest) with
    | some n => some ([], n)
    | none =>
      if c = '\n' then none
      else (tryAltRelink orig rest).map (fun r => (c :: r.1, r.2 + 1))

def relinkMatchAt (orig : List Char) (cs : List Char) : Option (List Char × Nat) :=
  match cs with
  | '!' :: '[' :: rest =>
    (tryAltRelink orig rest).map (fun r => (r.1, r.2 + 2))
  | _ => none

/-- One `re.sub` pass for a single map entry. -/
def relinkGo (orig new : List Char) : Nat → List Char → List Char
  | 0, l => l
  | fuel + 1, cs =>
    match cs with
    | [] => []
    | c :: rest =>
      match relinkMatchAt orig cs with
      | some (alt, n) =>
        chars "![" ++ alt ++ ']' :: '(' :: new ++ ')' :: relinkGo orig new fuel (cs.drop n)
      | none => c :: relinkGo orig new fuel rest

def relinkOne (orig new : List Char) (text : List Char) : List Char :=
  relinkGo orig new text.length text

/-- The relink loop over the image map, in insertion order. -/
def relinkAll (imageMap : List (List Char × List Char)) (text : List Char) : List Char :=
  imageMap.foldl (fun t p => relinkOne p.1 p.2 t) text

/-! ## Named-attachment image saving

Source: `save_images` of `src/utils.py`: per-image extension from the
original name, write, then record the mapping and advance the counter;
failures (modelled here as base64 decode errors, the failure source inside
the `try` block) are logged and skipped.  The filesystem write itself is
outside the model. -/

inductive ImgData where
  | raw (b : List Nat)
  | b64 (s : List Char)

def saveExt (name : List Char) : List Char :=
  let low := name.map asciiLower
  if (chars ".jpg").isSuffixOf low || (chars ".jpeg").isSuffixOf low then chars ".jpg"
  else chars ".png"

def saveImagesGo : Nat → List (List Char × ImgData) → List (List Char × List Char)
  | _, [] => []
  | counter, (name, data) :: rest =>
    let fname := chars "image_" ++ pad3 counter ++ saveExt name
    match data with
    | .raw _ => (name, chars "images/" ++ fname) :: saveImagesGo (counter + 1) rest
    | .b64 s =>
      match b64decode s with
      | some _ => (name, chars "images/" ++ fname) :: saveImagesGo (counter + 1) rest
      | none => saveImagesGo counter rest

/-- Mapping from original name to new relative path returned by `save_images`. -/
def saveImages (imagesData : List (List Char × ImgData)) : List (List Char × List Char) :=
  saveImagesGo 1 imagesData

/-! ## Observable properties and specification-side definitions -/

/-- Does the text contain a run of three or more consecutive newlines? -/
def hasTriple : List Char → Bool
  | '\n' :: '\n' :: '\n' :: _ => true
  | _ :: rest => hasTriple rest
  | [] => false

/-- Four-line window test on the emptiness pattern of the lines: some line
pair strictly inside the list is empty-empty (which is exactly where a
triple newline appears in the joined text). -/
def bpat : List Bool → Bool
  | _ :: b :: c :: d :: rest => (b && c) || bpat (b :: c :: d :: rest)
  | _ => false

/-- Header-spacing shape of the line starting here: if it begins with a run
of hashes, the run is followed by a space or by the end of the line. -/
def lineOKc (y : List Char) : Bool :=
  let ln := y.takeWhile (· ≠ '\n')
  let k := (ln.takeWhile (· = '#')).length
  if k = 0 then true
  else
    match ln.drop k with
    | [] => true
    | c :: _ => c == ' '

def gAux : Bool → List Char → Bool
  | _, [] => true
  | atStart, c :: rest =>
    (!atStart || lineOKc (c :: rest)) && gAux (c == '\n') rest

/-- Every line beginning with a hash run has a space (or end of line)
directly after the run. -/
def headerSpaced (x : List Char) : Bool := gAux true x

/-- The claimed property of C9 for one line: exactly one space between a
leading hash run and the following text. -/
def exactOneSpaceLine (l : List Char) : Bool :=
  let k := (l.takeWhile (· = '#')).length
  if k = 0 then true
  else
    match l.drop k with
    | [] => true
    | ' ' :: ' ' :: _ => false
    | ' ' :: _ => true
    | _ => false

/-- Number of leading newline characters. -/
def leadNL (l : List Char) : Nat := (l.takeWhile (· = '\n')).length

/-- Specification-side title stage, written from the amended wording of C8:
prepend the header if and only if the first line of the stripped document
does not start with hash-space-title. -/
def titleStageSpec (title : Option (List Char)) (md : List Char) : List Char :=
  match title with
  | none => md
  | some t =>
    if t = [] then md
    else if ('#' :: ' ' :: t).isPrefixOf ((pyStrip md).takeWhile (· ≠ '\n')) then md
    else '#' :: ' ' :: t ++ '\n' :: '\n' :: md

/-- Does this attachment decode successfully (the failure source inside
`save_images`'s try block)? -/
def saveOk : ImgData → Bool
  | .raw _ => true
  | .b64 s => (b64decode s).isSome

/-- A well-formed inline data-URI image reference. -/
def mkImg (a m p : List Char) : List Char :=
  '!' :: '[' :: a ++ chars "](data:image/" ++ m ++ chars ";base64," ++ p ++ [')']

/-- A document interleaving plain segments with inline images. -/
def imgsJoin : List ((List Char × List Char × List Char) × List Char) → List Char
  | [] => []
  | ((a, m, p), s) :: rest => mkImg a m p ++ s ++ imgsJoin rest

def docI (s0 : List Char) (l : List ((List Char × List Char × List Char) × List Char)) :
    List Char :=
  s0 ++ imgsJoin l

/-- Expected result of the extraction pass on an interleaved document. -/
def extSpec (idx : Nat) :
    List ((List Char × List Char × List Char) × List Char) →
    List Char × List (List Char × List Nat)
  | [] => ([], [])
  | ((a, m, p), s) :: rest =>
    let fname := imageName (idx + 1) (extOf (chars "image/" ++ m))
    let r := extSpec (idx + 1) rest
    match b64decode p with
    | some bs =>
      (chars "![" ++ a ++ chars "](images/" ++ fname ++ ')' :: (s ++ r.1),
       (fname, bs) :: r.2)
    | none =>
      (chars "![" ++ a ++ chars "](MISSING_IMAGE)" ++ (s ++ r.1), r.2)

/-- Every closing bracket in the text is the alt-closer of a rewritten
image link: it is immediately followed by a relative `images/` URL or by
the sentinel.  (Used to show no data-URI reference can survive in the
rewritten text.) -/
def brackOK (x : List Char) : Prop :=
  ∀ u v, x = u ++ ']' :: v →
    (chars "(images/").isPrefixOf v = true ∨
    (chars "(MISSING_IMAGE)").isPrefixOf v = true

/-- Filenames assigned by the extraction pass to the images of an
interleaved document, in left-to-right order: the i-th image (1-based,
counting from `idx`) receives `image_(idx+i)` with the extension from the
mime table. -/
def extNames (idx : Nat) :
    List ((List Char × List Char × List Char) × List Char) → List (List Char)
  | [] => []
  | ((_, m, _), _) :: rest =>
    imageName (idx + 1) (extOf (chars "image/" ++ m)) :: extNames (idx + 1) rest

/-- A markdown image reference with alt text and URL. -/
def mkRef (a u : List Char) : List Char :=
  '!' :: '[' :: a ++ ']' :: '(' :: u ++ [')']

/-- A document interleaving plain segments with image references. -/
def refsJoin : List ((List Char × List Char) × List Char) → List Char
  | [] => []
  | ((a, u), s) :: rest => mkRef a u ++ s ++ refsJoin rest

def docR (s0 : List Char) (l : List ((List Char × List Char) × List Char)) : List Char :=
  s0 ++ refsJoin l

/-- Hygiene conditions on one interleaved reference-and-segment entry for
the relink pass: alt text without closing bracket, newline or exclamation
mark; URL without closing parenthesis, newline, closing bracket or
exclamation mark; the following segment starts with a newline and contains
no exclamation mark. -/
def refEntryOK (e : (List Char × List Char) × List Char) : Prop :=
  (']' ∉ e.1.1 ∧ '\n' ∉ e.1.1 ∧ '!' ∉ e.1.1) ∧
  (')' ∉ e.1.2 ∧ '\n' ∉ e.1.2 ∧ ']' ∉ e.1.2 ∧ '!' ∉ e.1.2) ∧
  ('!' ∉ e.2 ∧ e.2.take 1 = ['\n'])

instance (e : (List Char × List Char) × List Char) : Decidable (refEntryOK e) := by
  unfold refEntryOK
  infer_instance

/-- Expected result of one relink pass on an interleaved document: exactly
the references whose URL ends with the original name are rewritten. -/
def relSpec (orig new : List Char) :
    List ((List Char × List Char) × List Char) → List Char
  | [] => []
  | ((a, u), s) :: rest =>
    mkRef a (if orig.isSuffixOf u then new else u) ++ s ++ relSpec orig new rest

/-- Consecutive numbering of surviving attachments, for the C10
specification-side description of `save_images`. -/
def numberFrom (c : Nat) : List (List Char × ImgData) → List (List Char × List Char)
  | [] => []
  | (name, _) :: rest =>
    (name, chars "images/" ++ (chars "image_" ++ pad3 c ++ saveExt name)) ::
      numberFrom (c + 1) rest

/-- Specification-side `save_images`, written from the wording of C10: drop
the failing attachments entirely (no sentinel, no counter use), then number
the survivors consecutively from 1, with the extension taken from the
original name alone. -/
def saveImagesSpec (imagesData : List (List Char × ImgData)) : List (List Char × List Char) :=
  numberFrom 1 (imagesData.filter (fun p => saveOk p.2))

/-! # Theorems -/

/-! ## Generic helper lemmas -/

theorem lstrip_cons_neg {c : Char} (t : List Char) (h : isPyWs c = false) :
    lstrip (c :: t) = c :: t := by
  simp [lstrip, List.dropWhile_cons, h]

/-- C4: the renumbering stage is a single left-to-right pass over the lines
with one counter starting at 0; a line matching the item pattern with
number 1 increments the counter and is emitted with it, a line with number
greater than 1 overwrites the counter and is emitted unchanged in value,
every other line passes through, resetting the counter exactly when its
stripped text starts with a hash; the two spec examples follow. -/
theorem c4_renumbering :
    (∀ (c : Nat) (l r : List Char), parseItem l = some (1, r) →
        renumStep c l = (c + 1, natLit (c + 1) ++ '.' :: ' ' :: r)) ∧
    (∀ (c : Nat) (l : List Char) (n : Nat) (r : List Char),
        parseItem l = some (n, r) → 1 < n →
        renumStep c l = (n, natLit n ++ '.' :: ' ' :: r)) ∧
    (∀ (c : Nat) (l : List Char), parseItem l = none →
        renumStep c l = (if (pyStrip l).take 1 = ['#'] then 0 else c, l)) ∧
    cleanMarkdown (chars "1. a\n1. b\n1. c") none = chars "1. a\n2. b\n3. c" ∧
    cleanMarkdown (chars "1. a\n# H\n1. b") none = chars "1. a\n# H\n1. b" := by
  refine ⟨?_, ?_, ?_, by decide, by decide⟩
  · intro c l r h
    simp [renumStep, h]
  · intro c l n r h hn
    have : n ≠ 1 := by omega
    simp [renumStep, h, this]
  · intro c l h
    simp [renumStep, h]

/-- C4 witness: the pass behaviour evaluated at concrete lines for each of
the three cases. -/
theorem c4_renumbering_witness :
    renumStep 4 (chars "1. x") = (5, natLit 5 ++ '.' :: ' ' :: chars "x") ∧
    renumStep 0 (chars "7. y") = (7, natLit 7 ++ '.' :: ' ' :: chars "y") ∧
    renumStep 3 (chars "# H") = (if (pyStrip (chars "# H")).take 1 = ['#'] then 0 else 3,
      chars "# H") :=
  ⟨c4_renumbering.1 4 (chars "1. x") (chars "x") (by decide),
   c4_renumbering.2.1 0 (chars "7. y") 7 (chars "y") (by decide) (by decide),
   c4_renumbering.2.2.1 3 (chars "# H") (by decide)⟩

/-! ## C8: title injection -/

/-- C8 counterexample: the code tests with a prefix check, not equality.
With title `Foo` and first line `# Foobar`, the first non-blank line is not
equal to the header for `Foo`, yet no header is prepended — refuting the
claimed if-and-only-if. -/
theorem c8_title_not_equality :
    cleanMarkdown (chars "# Foobar\n\nbody") (some (chars "Foo")) =
      chars "# Foobar\n\nbody" ∧
    chars "# Foobar" ≠ chars "# Foo" ∧
    (chars "# Foo\n\n").isPrefixOf
      (cleanMarkdown (chars "# Foobar\n\nbody") (some (chars "Foo"))) = false := by
  decide

/-- C8 amended: with a non-empty title the stage prepends the header and a
blank line if and only if the first line of the whitespace-stripped
document does not already start with hash-space-title (a prefix test, not
an equality test); title injection does not duplicate an existing exact
header. -/
theorem c8_title_prefix_rule :
    (∀ (t : Option (List Char)) (md : List Char), titleStage t md = titleStageSpec t md) ∧
    cleanMarkdown (chars "# Foo\n\nbody") (some (chars "Foo")) = chars "# Foo\n\nbody" ∧
    cleanMarkdown (chars "body") (some (chars "T")) = chars "# T\n\nbody" := by
  refine ⟨?_, by decide, by decide⟩
  intro t md
  cases t <;> rfl

/-! ## containsSub helper lemmas -/

theorem isPrefixOf_append_self (p z : List Char) : p.isPrefixOf (p ++ z) = true := by
  induction p with
  | nil => simp
  | cons a t ih => simp [List.isPrefixOf_cons₂, ih]

theorem containsSub_of_pref {x pat : List Char} (h : pat.isPrefixOf x = true) :
    containsSub x pat = true := by
  cases x with
  | nil =>
    cases pat with
    | nil => rfl
    | cons a t => simp at h
  | cons c rest => simp [containsSub, h]

theorem containsSub_append_left {t pat : List Char} (s : List Char)
    (h : containsSub t pat = true) : containsSub (s ++ t) pat = true := by
  induction s with
  | nil => simpa using h
  | cons a u ih => simp [containsSub, ih]

theorem containsSub_cons_of {x pat : List Char} (c : Char)
    (h : containsSub x pat = true) : containsSub (c :: x) pat = true := by
  simp [containsSub, h]

/-! ## C2: surviving image references -/

/-- C2 counterexample: an image reference with an absolute URL is not a
data URI, is never touched by the pipeline, and survives normalization
verbatim — so not every surviving reference resolves under the package's
image directory. -/
theorem c2_absolute_url_survives :
    createDocmost (chars "![a](http://x/y.png)") 0 none =
      (chars "![a](http://x/y.png)", []) ∧
    containsSub (createDocmost (chars "![a](http://x/y.png)") 0 none).1
      (chars "](http://x/y.png)") = true := by decide

/-- C2 amended: the invariant holds for the references the extraction pass
actually rewrites: every stored image carries a canonical `image_NNN.ext`
name, the pre-normalization markdown references it by the relative
`images/` path, and the ZIP stores it under `images/`; references that were
never data-URI matches (absolute URLs, plain filenames) pass through
unchanged, and failed decodes leave a `MISSING_IMAGE` sentinel instead. -/
theorem c2_extracted_refs_resolve_relative :
    (∀ (md : List Char) (idx : Nat) (p : List Char × List Nat),
        p ∈ (extractDataUris idx md).2 →
        (∃ j e, p.1 = imageName j e) ∧
        containsSub (extractDataUris idx md).1 (chars "](images/" ++ p.1) = true) ∧
    (∀ (md : List Char) (k : Nat) (t : Option (List Char)) (name : List Char),
        name ∈ docmostZipNames md k t →
        name = chars "document.md" ∨
        ∃ p, p ∈ (createDocmost md k t).2 ∧ name = chars "images/" ++ p.1) := by
  constructor
  · have key : ∀ (fuel idx : Nat) (md : List Char) (p : List Char × List Nat),
        p ∈ (extractGo fuel idx md).2 →
        (∃ j e, p.1 = imageName j e) ∧
        containsSub (extractGo fuel idx md).1 (chars "](images/" ++ p.1) = true := by
      intro fuel
      induction fuel with
      | zero => intro idx md p hp; simp [extractGo] at hp
      | succ fuel ih =>
        intro idx md p hp
        cases md with
        | nil => simp [extractGo] at hp
        | cons c rest =>
          simp only [extractGo] at hp ⊢
          cases hm : dataUriMatchAt (c :: rest) with
          | some q =>
            obtain ⟨alt, mime, payload, n⟩ := q
            simp only [hm] at hp ⊢
            cases hb : b64decode payload with
            | some bytes =>
              simp only [hb] at hp ⊢
              rcases List.mem_cons.mp hp with rfl | hmem
              · refine ⟨⟨idx + 1, extOf mime, rfl⟩, ?_⟩
                have : chars "![" ++ alt ++ chars "](images/" ++
                    imageName (idx + 1) (extOf mime) ++
                    ')' :: (extractGo fuel (idx + 1) ((c :: rest).drop n)).1 =
                    (chars "![" ++ alt) ++
                    ((chars "](images/" ++ imageName (idx + 1) (extOf mime)) ++
                      (')' :: (extractGo fuel (idx + 1) ((c :: rest).drop n)).1)) := by
                  simp [List.append_assoc]
                rw [this]
                exact containsSub_append_left _
                  (containsSub_of_pref (isPrefixOf_append_self _ _))
              · obtain ⟨hj, hc⟩ := ih (idx + 1) ((c :: rest).drop n) p hmem
                refine ⟨hj, ?_⟩
                have : chars "![" ++ alt ++ chars "](images/" ++
                    imageName (idx + 1) (extOf mime) ++
                    ')' :: (extractGo fuel (idx + 1) ((c :: rest).drop n)).1 =
                    (chars "![" ++ alt ++ chars "](images/" ++
                      imageName (idx + 1) (extOf mime) ++ [')']) ++
                      (extractGo fuel (idx + 1) ((c :: rest).drop n)).1 := by
                  simp [List.append_assoc]
                rw [this]
                exact containsSub_append_left _ hc
            | none =>
              simp only [hb] at hp ⊢
              obtain ⟨hj, hc⟩ := ih (idx + 1) ((c :: rest).drop n) p hp
              refine ⟨hj, ?_⟩
              have : chars "![" ++ alt ++ chars "](MISSING_IMAGE)" ++
                  (extractGo fuel (idx + 1) ((c :: rest).drop n)).1 =
                  (chars "![" ++ alt ++ chars "](MISSING_IMAGE)") ++
                    (extractGo fuel (idx + 1) ((c :: rest).drop n)).1 := by
                simp [List.append_assoc]
              rw [this]
              exact containsSub_append_left _ hc
          | none =>
            simp only [hm] at hp ⊢
            obtain ⟨hj, hc⟩ := ih idx rest p hp
            exact ⟨hj, containsSub_cons_of c hc⟩
    intro md idx p hp
    exact key md.length idx md p hp
  · intro md k t name hname
    simp only [docmostZipNames, List.mem_cons, List.mem_map] at hname
    rcases hname with rfl | ⟨p, hp, rfl⟩
    · exact Or.inl rfl
    · exact Or.inr ⟨p, hp, rfl⟩

/-- C2 amended witness: a concrete document with one inline image, whose
stored file is canonically named and referenced relatively. -/
theorem c2_extracted_refs_resolve_relative_witness :
    (∃ j e, (chars "image_001.png", ([65, 66, 67] : List Nat)).1 = imageName j e) ∧
    containsSub (extractDataUris 0 (chars "![a](data:image/png;base64,QUJD)")).1
      (chars "](images/" ++ (chars "image_001.png", ([65, 66, 67] : List Nat)).1) = true :=
  c2_extracted_refs_resolve_relative.1 (chars "![a](data:image/png;base64,QUJD)") 0
    (chars "image_001.png", [65, 66, 67]) (by decide)

/-! ## C3: no triple newlines -/

/-- C3 counterexample: tag stripping runs after newline collapsing, so
removing a tag that separated two blank lines leaves a run of four
newlines in the final output. -/
theorem c3_triple_newline_survives :
    cleanMarkdown (chars "a\n\n<div>\n\nb") none = chars "a\n\n\n\nb" ∧
    hasTriple (cleanMarkdown (chars "a\n\n<div>\n\nb") none) = true := by decide

/-! ## C5: inline image extraction counterexample -/

/-- C5 counterexample: a syntactically well-formed inline image whose mime
type is `image/svg+xml` is not matched (the pattern accepts letters only),
so it is not extracted and a `data:` reference remains in the output. -/
theorem c5_svg_image_not_extracted :
    extractDataUris 0 (chars "![a](data:image/svg+xml;base64,QUJD)") =
      (chars "![a](data:image/svg+xml;base64,QUJD)", []) ∧
    containsSub (extractDataUris 0 (chars "![a](data:image/svg+xml;base64,QUJD)")).1
      (chars "](data:") = true := by decide

/-! ## C7: relinking counterexamples -/

/-- C7 counterexample: the rewrite is anchored on a raw string suffix, not
on a path-component basename — a URL whose basename `fooa.png` is not in
the map is still rewritten because it merely ends with the mapped name;
moreover, when the new path itself ends with the original name, an
occurrence of the original name followed by a closing parenthesis remains
after relinking. -/
theorem c7_not_basename_anchored :
    relinkAll [(chars "a.png", chars "images/image_001.png")]
        (chars "![x](fooa.png)") = chars "![x](images/image_001.png)" ∧
    relinkAll [(chars "a.png", chars "images/image_001.png")]
        (chars "![x](fooa.png)") ≠ chars "![x](fooa.png)" ∧
    containsSub
      (relinkAll [(chars "image_001.png", chars "images/image_001.png")]
        (chars "![x](q/image_001.png)"))
      (chars "image_001.png)") = true := by decide

/-! ## C9: header spacing counterexample -/

/-- C9 counterexample: a header already carrying two spaces after the hash
run is left untouched, so normalization does not guarantee exactly one
space between the run and the header text. -/
theorem c9_double_space_survives :
    cleanMarkdown (chars "#  x") none = chars "#  x" ∧
    (splitNL (cleanMarkdown (chars "#  x") none)).all exactOneSpaceLine = false := by
  decide

/-! ## C10: named-attachment saving -/

/-- C10: `save_images` takes the extension solely from the original
filename (jpg for names ending in .jpg or .jpeg case-insensitively, png
otherwise, so gif and webp originals are stored under png names), advances
its counter only after a successful write, and silently omits failing
images from the mapping with no sentinel and no counter use — equivalently,
the mapping is the consecutive numbering of the surviving attachments; the
concrete example shows a gif stored as png and a failing image consuming no
counter value. -/
theorem c10_save_images :
    (∀ l, saveImages l = saveImagesSpec l) ∧
    saveImages [(chars "a.GIF", .raw [1, 2]), (chars "b.bin", .b64 (chars "QQ")),
        (chars "c.JPeG", .b64 (chars "QUJD"))] =
      [(chars "a.GIF", chars "images/image_001.png"),
       (chars "c.JPeG", chars "images/image_002.jpg")] := by
  have hgo : ∀ (l : List (List Char × ImgData)) (c : Nat),
      saveImagesGo c l = numberFrom c (l.filter (fun p => saveOk p.2)) := by
    intro l
    induction l with
    | nil => intro c; rfl
    | cons p rest ih =>
      intro c
      obtain ⟨name, d⟩ := p
      cases d with
      | raw b => simp [saveImagesGo, numberFrom, saveOk, List.filter_cons, ih]
      | b64 s =>
        cases hd : b64decode s with
        | some bs =>
          simp [saveImagesGo, hd, numberFrom, saveOk, List.filter_cons, Option.isSome, ih]
        | none =>
          simp [saveImagesGo, hd, numberFrom, saveOk, List.filter_cons, Option.isSome, ih]
  exact ⟨fun l => hgo l 1, by decide⟩

/-! ## Extraction machinery: fuel elimination and canonical equations -/

theorem dataUriMatchAt_pos {cs a m p : List Char} {n : Nat}
    (h : dataUriMatchAt cs = some (a, m, p, n)) : 2 ≤ n := by
  unfold dataUriMatchAt at h
  split at h
  · cases htry : tryAltData _ with
    | none => rw [htry] at h; exact absurd h (by simp)
    | some r =>
      rw [htry] at h
      simp only [Option.map_some', Option.some.injEq, Prod.mk.injEq] at h
      obtain ⟨-, -, -, hn⟩ := h
      omega
  · exact absurd h (by simp)

theorem extractGo_fuel : ∀ (f1 f2 idx : Nat) (l : List Char),
    l.length ≤ f1 → l.length ≤ f2 → extractGo f1 idx l = extractGo f2 idx l := by
  intro f1
  induction f1 with
  | zero =>
    intro f2 idx l h1 _
    have : l = [] := List.length_eq_zero.mp (Nat.le_zero.mp h1)
    subst this
    cases f2 <;> rfl
  | succ f1 ih =>
    intro f2 idx l h1 h2
    cases l with
    | nil => cases f2 <;> rfl
    | cons c rest =>
      cases f2 with
      | zero => simp at h2
      | succ f2 =>
        simp only [extractGo]
        cases hm : dataUriMatchAt (c :: rest) with
        | some q =>
          obtain ⟨alt, mime, payload, n⟩ := q
          have hn : 2 ≤ n := dataUriMatchAt_pos hm
          have hlen : ((c :: rest).drop n).length ≤ f1 := by
            simp only [List.length_drop, List.length_cons] at *
            omega
          have hlen2 : ((c :: rest).drop n).length ≤ f2 := by
            simp only [List.length_drop, List.length_cons] at *
            omega
          dsimp only
          rw [ih f2 (idx + 1) ((c :: rest).drop n) hlen hlen2]
        | none =>
          have hlen : rest.length ≤ f1 := by
            simp only [List.length_cons] at h1
            omega
          have hlen2 : rest.length ≤ f2 := by
            simp only [List.length_cons] at h2
            omega
          dsimp only
          rw [ih f2 idx rest hlen hlen2]

theorem extract_cons_match {idx : Nat} {c : Char} {rest alt mime payload : List Char}
    {n : Nat} (h : dataUriMatchAt (c :: rest) = some (alt, mime, payload, n)) :
    extractDataUris idx (c :: rest) =
      match b64decode payload with
      | some bytes =>
        (chars "![" ++ alt ++ chars "](images/" ++ imageName (idx + 1) (extOf mime) ++
          ')' :: (extractDataUris (idx + 1) ((c :: rest).drop n)).1,
         (imageName (idx + 1) (extOf mime), bytes) ::
          (extractDataUris (idx + 1) ((c :: rest).drop n)).2)
      | none =>
        (chars "![" ++ alt ++ chars "](MISSING_IMAGE)" ++
          (extractDataUris (idx + 1) ((c :: rest).drop n)).1,
         (extractDataUris (idx + 1) ((c :: rest).drop n)).2) := by
  have hfuel : extractGo rest.length (idx + 1) ((c :: rest).drop n) =
      extractDataUris (idx + 1) ((c :: rest).drop n) := by
    have hn : 2 ≤ n := dataUriMatchAt_pos h
    exact extractGo_fuel rest.length ((c :: rest).drop n).length (idx + 1) _
      (by simp only [List.length_drop, List.length_cons]; omega) (Nat.le_refl _)
  show extractGo (rest.length + 1) idx (c :: rest) = _
  simp only [extractGo, h, hfuel]

theorem extract_cons_nomatch {idx : Nat} {c : Char} {rest : List Char}
    (h : dataUriMatchAt (c :: rest) = none) :
    extractDataUris idx (c :: rest) =
      (c :: (extractDataUris idx rest).1, (extractDataUris idx rest).2) := by
  show extractGo (rest.length + 1) idx (c :: rest) = _
  simp only [extractGo, h]
  rfl

theorem dataUriMatchAt_not_bang {c : Char} {x : List Char} (h : c ≠ '!') :
    dataUriMatchAt (c :: x) = none := by
  unfold dataUriMatchAt
  split
  · next heq => exact absurd (List.cons.injEq .. ▸ heq).1 h
  · rfl

theorem extract_seg {s : List Char} (hs : '!' ∉ s) (idx : Nat) (rest : List Char) :
    extractDataUris idx (s ++ rest) =
      (s ++ (extractDataUris idx rest).1, (extractDataUris idx rest).2) := by
  induction s with
  | nil => simp
  | cons a s' ih =>
    have ha : a ≠ '!' := fun h => hs (h ▸ List.mem_cons_self a s')
    have hs' : '!' ∉ s' := fun h => hs (List.mem_cons_of_mem a h)
    rw [List.cons_append, extract_cons_nomatch (dataUriMatchAt_not_bang ha), ih hs']
    simp

/-! ## Matching a well-formed inline image -/

theorem scanPayload_spec {p : List Char} (z : List Char) (hp1 : ')' ∉ p)
    (hp2 : '\n' ∉ p) : scanPayload (p ++ ')' :: z) = some (p, p.length + 1) := by
  induction p with
  | nil => simp [scanPayload]
  | cons c p' ih =>
    have hc1 : c ≠ ')' := fun h => hp1 (h ▸ List.mem_cons_self c p')
    have hc2 : c ≠ '\n' := fun h => hp2 (h ▸ List.mem_cons_self c p')
    have hp1' : ')' ∉ p' := fun h => hp1 (List.mem_cons_of_mem c h)
    have hp2' : '\n' ∉ p' := fun h => hp2 (List.mem_cons_of_mem c h)
    simp [scanPayload, hc1, hc2, ih hp1' hp2']

theorem takeWhile_append_stop {q : Char → Bool} {m : List Char} {d : Char}
    (u : List Char) (hm : ∀ c ∈ m, q c = true) (hd : q d = false) :
    (m ++ d :: u).takeWhile q = m := by
  induction m with
  | nil => simp [List.takeWhile_cons, hd]
  | cons c m' ih =>
    have hc : q c = true := hm c (List.mem_cons_self c m')
    have hm' : ∀ c ∈ m', q c = true := fun c h => hm c (List.mem_cons_of_mem _ h)
    simp [List.takeWhile_cons, hc, ih hm']

theorem parseDataClose_ne {c : Char} {x : List Char} (h : c ≠ ']') :
    parseDataClose (c :: x) = none := by
  have hcond : (chars "](data:image/").isPrefixOf (c :: x) = false := by
    have hh : chars "](data:image/" = ']' :: chars "(data:image/" := rfl
    rw [hh, List.isPrefixOf_cons₂]
    simp [Ne.symm h]
  unfold parseDataClose
  rw [hcond]
  rfl

theorem parseDataClose_spec {m p : List Char} (z : List Char) (hm1 : m ≠ [])
    (hm2 : ∀ c ∈ m, asciiAlpha c = true) (hp1 : ')' ∉ p) (hp2 : '\n' ∉ p) :
    parseDataClose (chars "](data:image/" ++
        (m ++ (chars ";base64," ++ (p ++ ')' :: z)))) =
      some (chars "image/" ++ m, p, 13 + m.length + 8 + (p.length + 1)) := by
  have hsemi : chars ";base64," ++ (p ++ ')' :: z) =
      ';' :: (chars "base64," ++ (p ++ ')' :: z)) := rfl
  have htw : (m ++ (chars ";base64," ++ (p ++ ')' :: z))).takeWhile asciiAlpha = m := by
    rw [hsemi]
    exact takeWhile_append_stop _ hm2 (by decide)
  have hd13 : (chars "](data:image/" ++
      (m ++ (chars ";base64," ++ (p ++ ')' :: z)))).drop 13 =
      m ++ (chars ";base64," ++ (p ++ ')' :: z)) := by
    have h13 : 13 = (chars "](data:image/").length := rfl
    rw [h13, List.drop_left]
  have hdm : (m ++ (chars ";base64," ++ (p ++ ')' :: z))).drop m.length =
      chars ";base64," ++ (p ++ ')' :: z) := List.drop_left _ _
  have hd8 : (chars ";base64," ++ (p ++ ')' :: z)).drop 8 = p ++ ')' :: z := by
    have h8 : 8 = (chars ";base64,").length := rfl
    rw [h8, List.drop_left]
  unfold parseDataClose
  rw [isPrefixOf_append_self]
  simp only [if_true, hd13, htw, hdm, hd8, hm1, isPrefixOf_append_self,
    scanPayload_spec z hp1 hp2, if_false, Option.map_some']

theorem tryAltData_spec {a tail M P : List Char} {N : Nat} (ha1 : ']' ∉ a)
    (ha2 : '\n' ∉ a) (htail : parseDataClose tail = some (M, P, N)) :
    tryAltData (a ++ tail) = some (a, M, P, a.length + N) := by
  induction a with
  | nil =>
    cases tail with
    | nil => exact absurd htail (by simp [parseDataClose])
    | cons c rest =>
      simp only [List.nil_append]
      unfold tryAltData
      rw [htail]
      simp
  | cons c a' ih =>
    have hc1 : c ≠ ']' := fun h => ha1 (h ▸ List.mem_cons_self c a')
    have hc2 : c ≠ '\n' := fun h => ha2 (h ▸ List.mem_cons_self c a')
    have ha1' : ']' ∉ a' := fun h => ha1 (List.mem_cons_of_mem c h)
    have ha2' : '\n' ∉ a' := fun h => ha2 (List.mem_cons_of_mem c h)
    rw [List.cons_append]
    unfold tryAltData
    rw [parseDataClose_ne hc1, ih ha1' ha2']
    simp [hc2, List.length_cons]
    omega

theorem mkImg_explicit (a m p : List Char) :
    mkImg a m p = '!' :: '[' ::
      (a ++ (chars "](data:image/" ++ (m ++ (chars ";base64," ++ (p ++ [')']))))) := by
  simp [mkImg, List.append_assoc]

theorem mkImg_length (a m p : List Char) :
    (mkImg a m p).length = a.length + (13 + m.length + 8 + (p.length + 1)) + 2 := by
  rw [mkImg_explicit]
  have h1 : (chars "](data:image/").length = 13 := rfl
  have h2 : (chars ";base64,").length = 8 := rfl
  simp only [List.length_cons, List.length_append, h1, h2, List.length_singleton,
    List.length_nil]
  omega

theorem dataUriMatchAt_mkImg {a m p : List Char} (z : List Char) (ha1 : ']' ∉ a)
    (ha2 : '\n' ∉ a) (hm1 : m ≠ []) (hm2 : ∀ c ∈ m, asciiAlpha c = true)
    (hp1 : ')' ∉ p) (hp2 : '\n' ∉ p) :
    dataUriMatchAt (mkImg a m p ++ z) =
      some (a, chars "image/" ++ m, p, (mkImg a m p).length) := by
  have hexp : mkImg a m p ++ z = '!' :: '[' ::
      (a ++ (chars "](data:image/" ++ (m ++ (chars ";base64," ++ (p ++ ')' :: z))))) := by
    rw [mkImg_explicit]
    simp [List.append_assoc]
  rw [hexp]
  show (tryAltData _).map _ = _
  rw [tryAltData_spec ha1 ha2 (parseDataClose_spec z hm1 hm2 hp1 hp2)]
  simp only [Option.map_some']
  rw [mkImg_length]

theorem extract_match {idx : Nat} {x alt mime payload : List Char} {n : Nat}
    (h : dataUriMatchAt x = some (alt, mime, payload, n)) :
    extractDataUris idx x =
      match b64decode payload with
      | some bytes =>
        (chars "![" ++ alt ++ chars "](images/" ++ imageName (idx + 1) (extOf mime) ++
          ')' :: (extractDataUris (idx + 1) (x.drop n)).1,
         (imageName (idx + 1) (extOf mime), bytes) ::
          (extractDataUris (idx + 1) (x.drop n)).2)
      | none =>
        (chars "![" ++ alt ++ chars "](MISSING_IMAGE)" ++
          (extractDataUris (idx + 1) (x.drop n)).1,
         (extractDataUris (idx + 1) (x.drop n)).2) := by
  cases x with
  | nil => exact absurd h (by simp [dataUriMatchAt])
  | cons c rest => exact extract_cons_match h

/-- Hygiene conditions on one interleaved image-and-segment entry: the alt
text avoids the closing bracket and newlines, the mime suffix is a nonempty
run of letters, the payload avoids the closing parenthesis and newlines,
and the following segment contains no exclamation mark. -/
def imgEntryOK (q : (List Char × List Char × List Char) × List Char) : Prop :=
  (']' ∉ q.1.1 ∧ '\n' ∉ q.1.1) ∧
  (q.1.2.1 ≠ [] ∧ ∀ c ∈ q.1.2.1, asciiAlpha c = true) ∧
  (')' ∉ q.1.2.2 ∧ '\n' ∉ q.1.2.2) ∧ '!' ∉ q.2

instance (q : (List Char × List Char × List Char) × List Char) :
    Decidable (imgEntryOK q) := by
  unfold imgEntryOK
  infer_instance

theorem extract_docI {l : List ((List Char × List Char × List Char) × List Char)}
    (hl : ∀ q ∈ l, imgEntryOK q) :
    ∀ idx, extractDataUris idx (imgsJoin l) = extSpec idx l := by
  induction l with
  | nil => intro idx; rfl
  | cons q rest ih =>
    obtain ⟨⟨a, m, p⟩, s⟩ := q
    obtain ⟨⟨ha1, ha2⟩, ⟨hm1, hm2⟩, ⟨hp1, hp2⟩, hs⟩ := hl _ (List.mem_cons_self _ _)
    have hrest : ∀ q ∈ rest, imgEntryOK q := fun q hq => hl q (List.mem_cons_of_mem _ hq)
    intro idx
    have hjoin : imgsJoin (((a, m, p), s) :: rest) =
        mkImg a m p ++ (s ++ imgsJoin rest) := by
      simp [imgsJoin, List.append_assoc]
    have hmatch : dataUriMatchAt (mkImg a m p ++ (s ++ imgsJoin rest)) =
        some (a, chars "image/" ++ m, p, (mkImg a m p).length) :=
      dataUriMatchAt_mkImg _ ha1 ha2 hm1 hm2 hp1 hp2
    have hdrop : (mkImg a m p ++ (s ++ imgsJoin rest)).drop (mkImg a m p).length =
        s ++ imgsJoin rest := List.drop_left _ _
    rw [hjoin, extract_match hmatch, hdrop]
    rw [extract_seg hs, ih hrest]
    cases hb : b64decode p with
    | some bytes => simp [extSpec, hb]
    | none => simp [extSpec, hb]

/-! ## Decimal naming lemmas -/

theorem digitCh_toNat {n : Nat} (h : n < 10) : (digitCh n).toNat = 48 + n := by
  interval_cases n <;> decide

theorem digitCh_isDigit {n : Nat} (h : n < 10) : isDigitCh (digitCh n) = true := by
  interval_cases n <;> decide

theorem decVal_append_digit (a : List Char) (c : Char) :
    decVal (a ++ [c]) = decVal a * 10 + (c.toNat - 48) := by
  simp [decVal, List.foldl_append]

theorem natLitAux_fuel : ∀ f1 f2 n, n < f1 → n < f2 → natLitAux f1 n = natLitAux f2 n := by
  intro f1
  induction f1 with
  | zero => intro f2 n h1; omega
  | succ f1 ih =>
    intro f2 n h1 h2
    cases f2 with
    | zero => omega
    | succ f2 =>
      simp only [natLitAux]
      by_cases hn : n < 10
      · simp [hn]
      · have hd : n / 10 < n := Nat.div_lt_self (by omega) (by omega)
        simp only [hn, if_false]
        rw [ih f2 (n / 10) (by omega) (by omega)]

theorem decVal_natLit (n : Nat) : decVal (natLit n) = n := by
  induction n using Nat.strong_induction_on with
  | _ n ih =>
    by_cases hn : n < 10
    · show decVal (natLitAux (n + 1) n) = n
      have h10 : (digitCh n).toNat = 48 + n := digitCh_toNat hn
      simp [natLitAux, hn, decVal, h10]
    · show decVal (natLitAux (n + 1) n) = n
      have hd : n / 10 < n := Nat.div_lt_self (by omega) (by omega)
      simp only [natLitAux, hn, if_false]
      rw [natLitAux_fuel n (n / 10 + 1) (n / 10) (by omega) (by omega)]
      rw [decVal_append_digit]
      have : decVal (natLit (n / 10)) = n / 10 := ih (n / 10) hd
      rw [show natLitAux (n / 10 + 1) (n / 10) = natLit (n / 10) from rfl, this,
        digitCh_toNat (Nat.mod_lt n (by omega))]
      omega

theorem natLit_digits (n : Nat) : ∀ c ∈ natLit n, isDigitCh c = true := by
  have key : ∀ f m, m < f → ∀ c ∈ natLitAux f m, isDigitCh c = true := by
    intro f
    induction f with
    | zero => intro m h; omega
    | succ f ih =>
      intro m h c hc
      by_cases hm : m < 10
      · simp only [natLitAux, hm, if_true, List.mem_singleton] at hc
        exact hc ▸ digitCh_isDigit hm
      · have hd : m / 10 < m := Nat.div_lt_self (by omega) (by omega)
        simp only [natLitAux, hm, if_false, List.mem_append, List.mem_singleton] at hc
        rcases hc with hc | hc
        · exact ih (m / 10) (by omega) c hc
        · exact hc ▸ digitCh_isDigit (Nat.mod_lt m (by omega))
  exact key (n + 1) n (Nat.lt_succ_self n)

theorem decVal_zeros (k : Nat) (x : List Char) :
    decVal (List.replicate k '0' ++ x) = decVal x := by
  induction k with
  | zero => simp
  | succ k ih => simpa [List.replicate_succ, decVal] using ih

theorem pad3_decVal (n : Nat) : decVal (pad3 n) = n := by
  show decVal (List.replicate _ '0' ++ natLit n) = n
  rw [decVal_zeros, decVal_natLit]

theorem pad3_digits (n : Nat) : ∀ c ∈ pad3 n, isDigitCh c = true := by
  intro c hc
  rcases List.mem_append.mp hc with h | h
  · rw [List.eq_of_mem_replicate h]; decide
  · exact natLit_digits n c h

theorem unique_sep_split {c : Char} : ∀ {a b u w : List Char}, c ∉ a → c ∉ u →
    a ++ c :: b = u ++ c :: w → a = u ∧ b = w := by
  intro a
  induction a with
  | nil =>
    intro b u w _ hu h
    cases u with
    | nil => simpa using h
    | cons d u' =>
      simp only [List.nil_append, List.cons_append, List.cons.injEq] at h
      exact absurd (h.1 ▸ List.mem_cons_self d u') hu
  | cons x a' ih =>
    intro b u w ha hu h
    cases u with
    | nil =>
      simp only [List.cons_append, List.nil_append, List.cons.injEq] at h
      exact absurd (h.1 ▸ List.mem_cons_self x a') ha
    | cons d u' =>
      simp only [List.cons_append, List.cons.injEq] at h
      obtain ⟨rfl, h2⟩ := h
      have ha' : c ∉ a' := fun hh => ha (List.mem_cons_of_mem _ hh)
      have hu' : c ∉ u' := fun hh => hu (List.mem_cons_of_mem _ hh)
      obtain ⟨rfl, rfl⟩ := ih ha' hu' h2
      exact ⟨rfl, rfl⟩

theorem dot_not_in_pad3 (n : Nat) : '.' ∉ pad3 n := by
  intro h
  have := pad3_digits n '.' h
  simp [isDigitCh] at this

theorem imageName_inj_idx {i j : Nat} {e1 e2 : List Char}
    (h : imageName i e1 = imageName j e2) : i = j := by
  unfold imageName at h
  rw [List.append_assoc, List.append_assoc] at h
  have h2 := List.append_cancel_left h
  obtain ⟨hp, -⟩ := unique_sep_split (dot_not_in_pad3 i) (dot_not_in_pad3 j) h2
  have := congrArg decVal hp
  rwa [pad3_decVal, pad3_decVal] at this

/-! ## Assigned-name lemmas -/

theorem extNames_length (l : List ((List Char × List Char × List Char) × List Char)) :
    ∀ idx, (extNames idx l).length = l.length := by
  induction l with
  | nil => intro idx; rfl
  | cons q rest ih =>
    obtain ⟨⟨a, m, p⟩, s⟩ := q
    intro idx
    simp [extNames, ih (idx + 1)]

theorem extNames_mem {l : List ((List Char × List Char × List Char) × List Char)} :
    ∀ {idx name}, name ∈ extNames idx l → ∃ j e, idx < j ∧ name = imageName j e := by
  induction l with
  | nil => intro idx name h; simp [extNames] at h
  | cons q rest ih =>
    obtain ⟨⟨a, m, p⟩, s⟩ := q
    intro idx name h
    rcases List.mem_cons.mp h with rfl | h
    · exact ⟨idx + 1, extOf (chars "image/" ++ m), Nat.lt_succ_self idx, rfl⟩
    · obtain ⟨j, e, hj, he⟩ := ih h
      exact ⟨j, e, by omega, he⟩

theorem extNames_nodup (l : List ((List Char × List Char × List Char) × List Char)) :
    ∀ idx, (extNames idx l).Nodup := by
  induction l with
  | nil => intro idx; simp [extNames]
  | cons q rest ih =>
    obtain ⟨⟨a, m, p⟩, s⟩ := q
    intro idx
    refine List.nodup_cons.mpr ⟨?_, ih (idx + 1)⟩
    intro hmem
    obtain ⟨j, e, hj, he⟩ := extNames_mem hmem
    have := imageName_inj_idx he
    omega

theorem extSpec_files_named (l : List ((List Char × List Char × List Char) × List Char)) :
    ∀ idx q, q ∈ (extSpec idx l).2 → q.1 ∈ extNames idx l := by
  induction l with
  | nil => intro idx q h; simp [extSpec] at h
  | cons e rest ih =>
    obtain ⟨⟨a, m, p⟩, s⟩ := e
    intro idx q h
    simp only [extSpec] at h
    cases hb : b64decode p with
    | some bytes =>
      rw [hb] at h
      simp only at h
      rcases List.mem_cons.mp h with rfl | h
      · exact List.mem_cons_self _ _
      · exact List.mem_cons_of_mem _ (ih (idx + 1) q h)
    | none =>
      rw [hb] at h
      simp only at h
      exact List.mem_cons_of_mem _ (ih (idx + 1) q h)

/-! ## Bracket discipline of the rewritten text -/

theorem brackOK_nil : brackOK [] := by
  intro u v h
  exact absurd h (by simp)

theorem brackOK_append_left {x : List Char} : ∀ {a : List Char}, ']' ∉ a →
    brackOK x → brackOK (a ++ x) := by
  intro a
  induction a with
  | nil => intro _ hx; simpa using hx
  | cons d a' ih =>
    intro ha hx u v h
    cases u with
    | nil =>
      simp only [List.nil_append, List.cons_append, List.cons.injEq] at h
      exact absurd (h.1 ▸ List.mem_cons_self d a') ha
    | cons e u' =>
      simp only [List.cons_append, List.cons.injEq] at h
      have ha' : ']' ∉ a' := fun hh => ha (List.mem_cons_of_mem _ hh)
      exact ih ha' hx u' v h.2

theorem brackOK_build {mid rest : List Char}
    (hmid : ']' ∉ mid)
    (hpfx : (chars "(images/").isPrefixOf (mid ++ rest) = true ∨
      (chars "(MISSING_IMAGE)").isPrefixOf (mid ++ rest) = true)
    (hrest : brackOK rest) :
    ∀ {pre : List Char}, ']' ∉ pre → brackOK (pre ++ ']' :: (mid ++ rest)) := by
  intro pre
  induction pre with
  | nil =>
    intro _ u v h
    cases u with
    | nil =>
      simp only [List.nil_append, List.cons.injEq] at h
      exact h.2 ▸ hpfx
    | cons d u' =>
      simp only [List.nil_append, List.cons_append, List.cons.injEq] at h
      exact brackOK_append_left hmid hrest u' v h.2
  | cons x pre' ih =>
    intro hpre u v h
    cases u with
    | nil =>
      simp only [List.cons_append, List.nil_append, List.cons.injEq] at h
      exact absurd (h.1 ▸ List.mem_cons_self x pre') hpre
    | cons d u' =>
      simp only [List.cons_append, List.cons.injEq] at h
      have hpre' : ']' ∉ pre' := fun hh => hpre (List.mem_cons_of_mem _ hh)
      exact ih hpre' u' v h.2

theorem no_br_extOf (mime : List Char) : ']' ∉ extOf mime := by
  unfold extOf
  split_ifs <;> decide

theorem no_br_imageName (j : Nat) (mime : List Char) :
    ']' ∉ imageName j (extOf mime) := by
  intro h
  unfold imageName at h
  rcases List.mem_append.mp h with h | h
  · rcases List.mem_append.mp h with h | h
    · simp [chars] at h
    · have := pad3_digits j ']' h
      simp [isDigitCh] at this
  · rcases List.mem_cons.mp h with h | h
    · simp at h
    · exact no_br_extOf mime h

theorem extSpec_brackOK {l : List ((List Char × List Char × List Char) × List Char)}
    (hl : ∀ q ∈ l, imgEntryOK q) (hlb : ∀ q ∈ l, ']' ∉ q.2) :
    ∀ idx, brackOK ((extSpec idx l).1) := by
  induction l with
  | nil => intro idx; exact brackOK_nil
  | cons q rest ih =>
    obtain ⟨⟨a, m, p⟩, s⟩ := q
    obtain ⟨⟨ha1, -⟩, -, -, -⟩ := hl _ (List.mem_cons_self _ _)
    have hsb : ']' ∉ s := hlb _ (List.mem_cons_self _ _)
    have hrest : ∀ q ∈ rest, imgEntryOK q := fun q hq => hl q (List.mem_cons_of_mem _ hq)
    have hrestb : ∀ q ∈ rest, ']' ∉ q.2 := fun q hq => hlb q (List.mem_cons_of_mem _ hq)
    intro idx
    have hpre : ']' ∉ chars "![" ++ a := by
      intro h
      rcases List.mem_append.mp h with h | h
      · simp [chars] at h
      · exact ha1 h
    cases hb : b64decode p with
    | some bytes =>
      have hshape : (extSpec idx (((a, m, p), s) :: rest)).1 =
          (chars "![" ++ a) ++ ']' ::
            ((chars "(images/" ++ (imageName (idx + 1) (extOf (chars "image/" ++ m)) ++
              ')' :: s)) ++ (extSpec (idx + 1) rest).1) := by
        simp only [extSpec, hb]
        have hbr : chars "](images/" = ']' :: chars "(images/" := rfl
        rw [hbr]
        simp [List.append_assoc]
      rw [hshape]
      refine brackOK_build ?_ ?_ (ih hrest hrestb (idx + 1)) hpre
      · intro h
        rcases List.mem_append.mp h with h | h
        · simp [chars] at h
        · rcases List.mem_append.mp h with h | h
          · exact no_br_imageName _ _ h
          · rcases List.mem_cons.mp h with h | h
            · simp at h
            · exact hsb h
      · left
        rw [List.append_assoc]
        exact isPrefixOf_append_self _ _
    | none =>
      have hshape : (extSpec idx (((a, m, p), s) :: rest)).1 =
          (chars "![" ++ a) ++ ']' ::
            ((chars "(MISSING_IMAGE)" ++ s) ++ (extSpec (idx + 1) rest).1) := by
        simp only [extSpec, hb]
        have hbr : chars "](MISSING_IMAGE)" = ']' :: chars "(MISSING_IMAGE)" := rfl
        rw [hbr]
        simp [List.append_assoc]
      rw [hshape]
      refine brackOK_build ?_ ?_ (ih hrest hrestb (idx + 1)) hpre
      · intro h
        rcases List.mem_append.mp h with h | h
        · simp [chars] at h
        · exact hsb h
      · right
        rw [List.append_assoc]
        exact isPrefixOf_append_self _ _

theorem pref_exists {p : List Char} : ∀ {x : List Char},
    p.isPrefixOf x = true ↔ ∃ t, x = p ++ t := by
  induction p with
  | nil => intro x; simp
  | cons c p' ih =>
    intro x
    cases x with
    | nil => simp
    | cons d rest =>
      rw [List.isPrefixOf_cons₂]
      constructor
      · intro h
        obtain ⟨h1, h2⟩ := Bool.and_eq_true .. ▸ h
        obtain ⟨t, rfl⟩ := ih.mp h2
        exact ⟨t, by simp [beq_iff_eq.mp h1]⟩
      · rintro ⟨t, ht⟩
        simp only [List.cons_append, List.cons.injEq] at ht
        obtain ⟨rfl, rfl⟩ := ht
        simp [ih]

theorem containsSub_exists {x pat : List Char} :
    containsSub x pat = true ↔ ∃ u v, x = u ++ pat ++ v := by
  induction x with
  | nil =>
    simp only [containsSub, List.isEmpty_iff]
    constructor
    · rintro rfl; exact ⟨[], [], rfl⟩
    · rintro ⟨u, v, h⟩
      have hlen := congrArg List.length h
      simp only [List.length_nil, List.length_append] at hlen
      exact List.length_eq_zero.mp (by omega)
  | cons c rest ih =>
    simp only [containsSub, Bool.or_eq_true]
    constructor
    · rintro (h | h)
      · obtain ⟨t, ht⟩ := pref_exists.mp h
        exact ⟨[], t, by simpa using ht⟩
      · obtain ⟨u, v, hv⟩ := ih.mp h
        exact ⟨c :: u, v, by simp [hv]⟩
    · rintro ⟨u, v, h⟩
      cases u with
      | nil =>
        left
        simp only [List.nil_append] at h
        exact pref_exists.mpr ⟨v, h⟩
      | cons d u' =>
        right
        simp only [List.cons_append, List.cons.injEq] at h
        exact ih.mpr ⟨u', v, h.2⟩

theorem noData_of_brackOK {x : List Char} (h : brackOK x) :
    containsSub x (chars "](data:") = false := by
  cases hc : containsSub x (chars "](data:") with
  | false => rfl
  | true =>
    obtain ⟨u, v, hx⟩ := containsSub_exists.mp hc
    have hform : x = u ++ ']' :: (chars "(data:" ++ v) := by
      rw [hx]
      have : chars "](data:" = ']' :: chars "(data:" := rfl
      rw [this]
      simp [List.append_assoc]
    rcases h u (chars "(data:" ++ v) hform with hp | hp
    · have h1 : chars "(images/" = '(' :: 'i' :: chars "mages/" := rfl
      have h2 : chars "(data:" ++ v = '(' :: 'd' :: (chars "ata:" ++ v) := rfl
      rw [h1, h2, List.isPrefixOf_cons₂, List.isPrefixOf_cons₂] at hp
      simp at hp
    · have h1 : chars "(MISSING_IMAGE)" = '(' :: 'M' :: chars "ISSING_IMAGE)" := rfl
      have h2 : chars "(data:" ++ v = '(' :: 'd' :: (chars "ata:" ++ v) := rfl
      rw [h1, h2, List.isPrefixOf_cons₂, List.isPrefixOf_cons₂] at hp
      simp at hp

/-! ## C5: extraction of valid inline images -/

/-- C5 amended: on a document interleaving hygienic plain segments with
inline images whose declared mime suffix is a nonempty run of letters (the
form the code's pattern accepts — `image/svg+xml` is outside it), the
extraction pass rewrites exactly those images, assigning the sequential
filenames recorded by `extNames` (the i-th image gets `image_00i` with the
extension from the declared mime per the jpeg/jpg, gif, webp, else png
table), these names are pairwise distinct, every stored file carries one of
them, and no `](data:` reference survives in the rewritten markdown. -/
theorem c5_valid_images_extracted_sequentially
    {l : List ((List Char × List Char × List Char) × List Char)} {s0 : List Char}
    (hs0 : '!' ∉ s0) (hs0b : ']' ∉ s0)
    (hl : ∀ q ∈ l, imgEntryOK q) (hlb : ∀ q ∈ l, ']' ∉ q.2) :
    extractDataUris 0 (docI s0 l) = (s0 ++ (extSpec 0 l).1, (extSpec 0 l).2) ∧
    (extNames 0 l).length = l.length ∧
    (extNames 0 l).Nodup ∧
    (∀ q ∈ (extSpec 0 l).2, q.1 ∈ extNames 0 l) ∧
    containsSub (s0 ++ (extSpec 0 l).1) (chars "](data:") = false := by
  refine ⟨?_, extNames_length l 0, extNames_nodup l 0, extSpec_files_named l 0, ?_⟩
  · show extractDataUris 0 (s0 ++ imgsJoin l) = _
    rw [extract_seg hs0, extract_docI hl 0]
  · exact noData_of_brackOK (brackOK_append_left hs0b (extSpec_brackOK hl hlb 0))

/-- C5 witness: a two-image document (png then jpeg) with plain segments,
extracted into sequentially named files with no surviving data reference. -/
theorem c5_valid_images_extracted_sequentially_witness :
    extractDataUris 0 (docI (chars "intro ")
        [((chars "a", chars "png", chars "QUJD"), chars " mid "),
         ((chars "b", chars "jpeg", chars "QQ=="), chars " end")]) =
      (chars "intro " ++
        (extSpec 0 [((chars "a", chars "png", chars "QUJD"), chars " mid "),
          ((chars "b", chars "jpeg", chars "QQ=="), chars " end")]).1,
       (extSpec 0 [((chars "a", chars "png", chars "QUJD"), chars " mid "),
          ((chars "b", chars "jpeg", chars "QQ=="), chars " end")]).2) ∧
    (extNames 0 [((chars "a", chars "png", chars "QUJD"), chars " mid "),
        ((chars "b", chars "jpeg", chars "QQ=="), chars " end")]).length = 2 ∧
    (extNames 0 [((chars "a", chars "png", chars "QUJD"), chars " mid "),
        ((chars "b", chars "jpeg", chars "QQ=="), chars " end")]).Nodup ∧
    (∀ q ∈ (extSpec 0 [((chars "a", chars "png", chars "QUJD"), chars " mid "),
        ((chars "b", chars "jpeg", chars "QQ=="), chars " end")]).2,
      q.1 ∈ extNames 0 [((chars "a", chars "png", chars "QUJD"), chars " mid "),
        ((chars "b", chars "jpeg", chars "QQ=="), chars " end")]) ∧
    containsSub (chars "intro " ++
      (extSpec 0 [((chars "a", chars "png", chars "QUJD"), chars " mid "),
        ((chars "b", chars "jpeg", chars "QQ=="), chars " end")]).1)
      (chars "](data:") = false :=
  c5_valid_images_extracted_sequentially (by decide) (by decide) (by decide) (by decide)

/-! ## C6: localized decode failure -/

/-- C6: a malformed base64 payload in the middle of three inline images
does not abort extraction: the failing reference becomes the sentinel with
its alt text preserved, the two good images are stored as exactly two
files named `image_001` and `image_003` (the counter advanced across the
failure, so failed and successful images never share a filename). -/
theorem c6_decode_failure_localized
    (s0 s1 s2 s3 a1 a2 a3 m1 m2 m3 p1 p2 p3 : List Char) (b1 b3 : List Nat)
    (h0 : '!' ∉ s0)
    (hE1 : imgEntryOK ((a1, m1, p1), s1)) (hE2 : imgEntryOK ((a2, m2, p2), s2))
    (hE3 : imgEntryOK ((a3, m3, p3), s3))
    (hd1 : b64decode p1 = some b1) (hd2 : b64decode p2 = none)
    (hd3 : b64decode p3 = some b3) :
    (extractDataUris 0 (docI s0
        [((a1, m1, p1), s1), ((a2, m2, p2), s2), ((a3, m3, p3), s3)])).2 =
      [(imageName 1 (extOf (chars "image/" ++ m1)), b1),
       (imageName 3 (extOf (chars "image/" ++ m3)), b3)] ∧
    containsSub (extractDataUris 0 (docI s0
        [((a1, m1, p1), s1), ((a2, m2, p2), s2), ((a3, m3, p3), s3)])).1
      (chars "![" ++ a2 ++ chars "](MISSING_IMAGE)") = true ∧
    imageName 1 (extOf (chars "image/" ++ m1)) ≠
      imageName 3 (extOf (chars "image/" ++ m3)) := by
  have hl : ∀ q ∈ [((a1, m1, p1), s1), ((a2, m2, p2), s2), ((a3, m3, p3), s3)],
      imgEntryOK q := by
    intro q hq
    rcases List.mem_cons.mp hq with rfl | hq
    · exact hE1
    rcases List.mem_cons.mp hq with rfl | hq
    · exact hE2
    rcases List.mem_cons.mp hq with rfl | hq
    · exact hE3
    simp at hq
  have hchar : extractDataUris 0 (docI s0
      [((a1, m1, p1), s1), ((a2, m2, p2), s2), ((a3, m3, p3), s3)]) =
      (s0 ++ (extSpec 0 [((a1, m1, p1), s1), ((a2, m2, p2), s2), ((a3, m3, p3), s3)]).1,
       (extSpec 0 [((a1, m1, p1), s1), ((a2, m2, p2), s2), ((a3, m3, p3), s3)]).2) := by
    show extractDataUris 0 (s0 ++ _) = _
    rw [extract_seg h0, extract_docI hl 0]
  refine ⟨?_, ?_, ?_⟩
  · rw [hchar]
    simp [extSpec, hd1, hd2, hd3]
  · rw [hchar]
    simp only [extSpec, hd1, hd2, hd3]
    apply containsSub_append_left
    apply containsSub_append_left
    apply containsSub_cons_of
    apply containsSub_append_left
    exact containsSub_of_pref (isPrefixOf_append_self _ _)
  · intro h
    have := imageName_inj_idx h
    omega

/-- C6 witness: three concrete images, the middle payload malformed,
yielding two stored files and one sentinel reference. -/
theorem c6_decode_failure_localized_witness :
    (extractDataUris 0 (docI (chars "s ")
        [((chars "a1", chars "png", chars "QUJD"), chars " t "),
         ((chars "a2", chars "png", chars "QQ"), chars " u "),
         ((chars "a3", chars "gif", chars "QQ=="), chars " v")])).2 =
      [(imageName 1 (extOf (chars "image/" ++ chars "png")), [65, 66, 67]),
       (imageName 3 (extOf (chars "image/" ++ chars "gif")), [65])] ∧
    containsSub (extractDataUris 0 (docI (chars "s ")
        [((chars "a1", chars "png", chars "QUJD"), chars " t "),
         ((chars "a2", chars "png", chars "QQ"), chars " u "),
         ((chars "a3", chars "gif", chars "QQ=="), chars " v")])).1
      (chars "![" ++ chars "a2" ++ chars "](MISSING_IMAGE)") = true ∧
    imageName 1 (extOf (chars "image/" ++ chars "png")) ≠
      imageName 3 (extOf (chars "image/" ++ chars "gif")) :=
  c6_decode_failure_localized (chars "s ") (chars " t ") (chars " u ") (chars " v")
    (chars "a1") (chars "a2") (chars "a3") (chars "png") (chars "png") (chars "gif")
    (chars "QUJD") (chars "QQ") (chars "QQ==") [65, 66, 67] [65]
    (by decide) (by decide) (by decide) (by decide) (by decide) (by decide) (by decide)

/-! ## Relink machinery: fuel elimination and canonical equations -/

theorem relinkMatchAt_pos {orig cs alt : List Char} {n : Nat}
    (h : relinkMatchAt orig cs = some (alt, n)) : 2 ≤ n := by
  unfold relinkMatchAt at h
  split at h
  · cases htry : tryAltRelink orig _ with
    | none => rw [htry] at h; exact absurd h (by simp)
    | some r =>
      rw [htry] at h
      simp only [Option.map_some', Option.some.injEq, Prod.mk.injEq] at h
      obtain ⟨-, hn⟩ := h
      omega
  · exact absurd h (by simp)

theorem relinkGo_fuel (orig new : List Char) : ∀ (f1 f2 : Nat) (l : List Char),
    l.length ≤ f1 → l.length ≤ f2 → relinkGo orig new f1 l = relinkGo orig new f2 l := by
  intro f1
  induction f1 with
  | zero =>
    intro f2 l h1 _
    have : l = [] := List.length_eq_zero.mp (Nat.le_zero.mp h1)
    subst this
    cases f2 <;> rfl
  | succ f1 ih =>
    intro f2 l h1 h2
    cases l with
    | nil => cases f2 <;> rfl
    | cons c rest =>
      cases f2 with
      | zero => simp at h2
      | succ f2 =>
        simp only [relinkGo]
        cases hm : relinkMatchAt orig (c :: rest) with
        | some q =>
          obtain ⟨alt, n⟩ := q
          have hn : 2 ≤ n := relinkMatchAt_pos hm
          have hlen : ((c :: rest).drop n).length ≤ f1 := by
            simp only [List.length_drop, List.length_cons] at *
            omega
          have hlen2 : ((c :: rest).drop n).length ≤ f2 := by
            simp only [List.length_drop, List.length_cons] at *
            omega
          dsimp only
          rw [ih f2 ((c :: rest).drop n) hlen hlen2]
        | none =>
          have hlen : rest.length ≤ f1 := by
            simp only [List.length_cons] at h1
            omega
          have hlen2 : rest.length ≤ f2 := by
            simp only [List.length_cons] at h2
            omega
          dsimp only
          rw [ih f2 rest hlen hlen2]

theorem relink_cons_match {orig new : List Char} {c : Char} {rest alt : List Char}
    {n : Nat} (h : relinkMatchAt orig (c :: rest) = some (alt, n)) :
    relinkOne orig new (c :: rest) =
      chars "![" ++ alt ++ ']' :: '(' :: new ++
        ')' :: relinkOne orig new ((c :: rest).drop n) := by
  have hn : 2 ≤ n := relinkMatchAt_pos h
  have hfuel : relinkGo orig new rest.length ((c :: rest).drop n) =
      relinkOne orig new ((c :: rest).drop n) :=
    relinkGo_fuel orig new rest.length ((c :: rest).drop n).length _
      (by simp only [List.length_drop, List.length_cons]; omega) (Nat.le_refl _)
  show relinkGo orig new (rest.length + 1) (c :: rest) = _
  simp only [relinkGo, h, hfuel]

theorem relink_cons_nomatch {orig new : List Char} {c : Char} {rest : List Char}
    (h : relinkMatchAt orig (c :: rest) = none) :
    relinkOne orig new (c :: rest) = c :: relinkOne orig new rest := by
  show relinkGo orig new (rest.length + 1) (c :: rest) = _
  simp only [relinkGo, h]
  rfl

theorem relinkMatchAt_not_bang {orig : List Char} {c : Char} {x : List Char}
    (h : c ≠ '!') : relinkMatchAt orig (c :: x) = none := by
  unfold relinkMatchAt
  split
  · next heq => exact absurd (List.cons.injEq .. ▸ heq).1 h
  · rfl

theorem relink_seg {s : List Char} (orig new : List Char) (hs : '!' ∉ s)
    (rest : List Char) :
    relinkOne orig new (s ++ rest) = s ++ relinkOne orig new rest := by
  induction s with
  | nil => simp
  | cons a s' ih =>
    have ha : a ≠ '!' := fun h => hs (h ▸ List.mem_cons_self a s')
    have hs' : '!' ∉ s' := fun h => hs (List.mem_cons_of_mem a h)
    rw [List.cons_append, relink_cons_nomatch (relinkMatchAt_not_bang ha), ih hs']
    rfl

/-! ## URL scanning lemmas -/

theorem suffix_exists {orig u : List Char} :
    orig.isSuffixOf u = true ↔ ∃ w, u = w ++ orig := by
  show orig.reverse.isPrefixOf u.reverse = true ↔ _
  rw [pref_exists]
  constructor
  · rintro ⟨t, ht⟩
    refine ⟨t.reverse, ?_⟩
    have := congrArg List.reverse ht
    simpa [List.reverse_append] using this
  · rintro ⟨w, rfl⟩
    exact ⟨w.reverse, by simp [List.reverse_append]⟩

theorem pref_forces_eq {orig : List Char} (horig : ')' ∉ orig) :
    ∀ {u tail : List Char}, ')' ∉ u →
      (orig ++ [')']).isPrefixOf (u ++ ')' :: tail) = true → orig = u := by
  induction orig with
  | nil =>
    intro u tail hu h
    cases u with
    | nil => rfl
    | cons d u' =>
      simp only [List.nil_append, List.cons_append, List.isPrefixOf_cons₂] at h
      obtain ⟨h1, -⟩ := Bool.and_eq_true .. ▸ h
      exact absurd (beq_iff_eq.mp h1 ▸ List.mem_cons_self d u') hu
  | cons c orig' ih =>
    intro u tail hu h
    have horig' : ')' ∉ orig' := fun hh => horig (List.mem_cons_of_mem c hh)
    cases u with
    | nil =>
      simp only [List.cons_append, List.nil_append, List.isPrefixOf_cons₂] at h
      obtain ⟨h1, -⟩ := Bool.and_eq_true .. ▸ h
      exact absurd (beq_iff_eq.mp h1 ▸ List.mem_cons_self c orig') horig
    | cons d u' =>
      simp only [List.cons_append, List.isPrefixOf_cons₂] at h
      obtain ⟨h1, h2⟩ := Bool.and_eq_true .. ▸ h
      have hu' : ')' ∉ u' := fun hh => hu (List.mem_cons_of_mem d hh)
      rw [beq_iff_eq.mp h1, ih horig' hu' h2]

theorem scanUrl_nil (orig : List Char) (hne : orig ≠ []) : scanUrl orig [] = none := by
  unfold scanUrl
  cases orig with
  | nil => exact absurd rfl hne
  | cons c o' => rfl

theorem scanUrl_pos {orig : List Char} {c : Char} {rest : List Char}
    (h : (orig ++ [')']).isPrefixOf (c :: rest) = true) :
    scanUrl orig (c :: rest) = some (orig.length + 1) := by
  unfold scanUrl
  rw [h]
  simp

theorem scanUrl_step {orig : List Char} {c : Char} {rest : List Char}
    (h : (orig ++ [')']).isPrefixOf (c :: rest) = false) (hc : c ≠ '\n') :
    scanUrl orig (c :: rest) = (scanUrl orig rest).map (· + 1) := by
  simp only [scanUrl]
  rw [h]
  simp only [Bool.false_eq_true, if_false]
  rw [if_neg hc]

theorem scanUrl_stop {orig : List Char} {rest : List Char}
    (h : (orig ++ [')']).isPrefixOf ('\n' :: rest) = false) :
    scanUrl orig ('\n' :: rest) = none := by
  unfold scanUrl
  rw [h]
  simp

theorem scanUrl_hit {orig : List Char} (horig : ')' ∉ orig) :
    ∀ {w : List Char} (tail : List Char), ')' ∉ w ++ orig → '\n' ∉ w ++ orig →
      scanUrl orig ((w ++ orig) ++ ')' :: tail) = some ((w ++ orig).length + 1) := by
  intro w
  induction w with
  | nil =>
    intro tail _ _
    simp only [List.nil_append]
    have hpref : (orig ++ [')']).isPrefixOf (orig ++ ')' :: tail) = true := by
      have hsh : orig ++ ')' :: tail = (orig ++ [')']) ++ tail := by simp
      rw [hsh]
      exact isPrefixOf_append_self _ _
    cases horig2 : orig ++ ')' :: tail with
    | nil => exact absurd horig2 (by simp)
    | cons c rest =>
      rw [horig2] at hpref
      rw [scanUrl_pos hpref]
  | cons d w' ih =>
    intro tail hP hN
    have hd1 : d ≠ ')' := fun h => hP (h ▸ List.mem_cons_self d (w' ++ orig))
    have hd2 : d ≠ '\n' := fun h => hN (h ▸ List.mem_cons_self d (w' ++ orig))
    have hP' : ')' ∉ w' ++ orig := fun h => hP (List.mem_cons_of_mem d h)
    have hN' : '\n' ∉ w' ++ orig := fun h => hN (List.mem_cons_of_mem d h)
    have hform : ((d :: w' ++ orig) ++ ')' :: tail : List Char) =
        d :: ((w' ++ orig) ++ ')' :: tail) := by simp
    rw [hform]
    have hnp : (orig ++ [')']).isPrefixOf (d :: ((w' ++ orig) ++ ')' :: tail)) = false := by
      cases hb : (orig ++ [')']).isPrefixOf (d :: ((w' ++ orig) ++ ')' :: tail)) with
      | false => rfl
      | true =>
        exfalso
        have heq : orig = d :: (w' ++ orig) :=
          pref_forces_eq horig (by
            intro hh
            rcases List.mem_cons.mp hh with h | h
            · exact hd1 h.symm
            · exact hP' h) hb
        have hlen := congrArg List.length heq
        simp only [List.length_cons, List.length_append] at hlen
        omega
    rw [scanUrl_step hnp hd2, ih tail hP' hN']
    simp [List.length_cons]

theorem scanUrl_blocked {orig : List Char} (hne : orig ≠ []) (horig : ')' ∉ orig)
    (horigN : '\n' ∉ orig) : ∀ {u : List Char} {tail : List Char}, ')' ∉ u → '\n' ∉ u →
      (¬ ∃ w, u = w ++ orig) → (tail = [] ∨ ∃ t', tail = '\n' :: t') →
      scanUrl orig (u ++ ')' :: tail) = none := by
  intro u
  induction u with
  | nil =>
    intro tail _ _ hnsuf htail
    simp only [List.nil_append]
    have hh : (orig ++ [')']).isPrefixOf (')' :: tail) = false := by
      cases orig with
      | nil => exact absurd rfl hne
      | cons c o' =>
        rw [show ((c :: o') ++ [')'] : List Char) = c :: (o' ++ [')']) from rfl,
          List.isPrefixOf_cons₂]
        have : c ≠ ')' := fun h => horig (h ▸ List.mem_cons_self c o')
        simp [this]
    rw [scanUrl_step hh (by decide)]
    rcases htail with rfl | ⟨t', rfl⟩
    · rw [scanUrl_nil orig hne]
      rfl
    · have hh2 : (orig ++ [')']).isPrefixOf ('\n' :: t') = false := by
        cases orig with
        | nil => exact absurd rfl hne
        | cons c o' =>
          rw [show ((c :: o') ++ [')'] : List Char) = c :: (o' ++ [')']) from rfl,
            List.isPrefixOf_cons₂]
          have : c ≠ '\n' := fun h => horigN (h ▸ List.mem_cons_self c o')
          simp [this]
      rw [scanUrl_stop hh2]
      rfl
  | cons d u' ih =>
    intro tail hP hN hnsuf htail
    have hd1 : d ≠ ')' := fun h => hP (h ▸ List.mem_cons_self d u')
    have hd2 : d ≠ '\n' := fun h => hN (h ▸ List.mem_cons_self d u')
    have hP' : ')' ∉ u' := fun h => hP (List.mem_cons_of_mem d h)
    have hN' : '\n' ∉ u' := fun h => hN (List.mem_cons_of_mem d h)
    have hnsuf' : ¬ ∃ w, u' = w ++ orig := by
      rintro ⟨w, rfl⟩
      exact hnsuf ⟨d :: w, rfl⟩
    have hform : ((d :: u') ++ ')' :: tail : List Char) = d :: (u' ++ ')' :: tail) := by
      simp
    rw [hform]
    have hnp : (orig ++ [')']).isPrefixOf (d :: (u' ++ ')' :: tail)) = false := by
      cases hb : (orig ++ [')']).isPrefixOf (d :: (u' ++ ')' :: tail)) with
      | false => rfl
      | true =>
        exfalso
        have heq : orig = d :: u' :=
          pref_forces_eq horig (by
            intro hh
            rcases List.mem_cons.mp hh with h | h
            · exact hd1 h.symm
            · exact hP' h) hb
        exact hnsuf ⟨[], by simp [← heq]⟩
    rw [scanUrl_step hnp hd2, ih hP' hN' hnsuf' htail]
    rfl


/-! ## Reference matching for the relink pattern -/

theorem parseRelinkClose_ne {orig : List Char} {c : Char} {x : List Char}
    (h : c ≠ ']') : parseRelinkClose orig (c :: x) = none := by
  unfold parseRelinkClose
  split
  · next heq => exact absurd (List.cons.injEq .. ▸ heq).1 h
  · rfl

theorem parseRelinkClose_close (orig t : List Char) :
    parseRelinkClose orig (']' :: '(' :: t) = (scanUrl orig t).map (2 + ·) := rfl

theorem tryAltRelink_spec {orig a tail : List Char} {n : Nat} (ha1 : ']' ∉ a)
    (ha2 : '\n' ∉ a) (htail : parseRelinkClose orig tail = some n) :
    tryAltRelink orig (a ++ tail) = some (a, a.length + n) := by
  induction a with
  | nil =>
    cases tail with
    | nil => exact absurd htail (by simp [parseRelinkClose])
    | cons c rest =>
      simp only [List.nil_append]
      unfold tryAltRelink
      rw [htail]
      simp
  | cons c a' ih =>
    have hc1 : c ≠ ']' := fun h => ha1 (h ▸ List.mem_cons_self c a')
    have hc2 : c ≠ '\n' := fun h => ha2 (h ▸ List.mem_cons_self c a')
    have ha1' : ']' ∉ a' := fun h => ha1 (List.mem_cons_of_mem c h)
    have ha2' : '\n' ∉ a' := fun h => ha2 (List.mem_cons_of_mem c h)
    rw [List.cons_append]
    unfold tryAltRelink
    rw [parseRelinkClose_ne hc1, ih ha1' ha2']
    simp [hc2, List.length_cons]
    omega

theorem tryAltRelink_through {orig : List Char} : ∀ {j tail : List Char}, ']' ∉ j →
    '\n' ∉ j → (tail = [] ∨ ∃ t', tail = '\n' :: t') →
    tryAltRelink orig (j ++ tail) = none := by
  intro j
  induction j with
  | nil =>
    intro tail _ _ htail
    rcases htail with rfl | ⟨t', rfl⟩
    · rfl
    · simp only [List.nil_append]
      unfold tryAltRelink
      rw [parseRelinkClose_ne (by decide)]
      simp
  | cons c j' ih =>
    intro tail hb hn htail
    have hc1 : c ≠ ']' := fun h => hb (h ▸ List.mem_cons_self c j')
    have hc2 : c ≠ '\n' := fun h => hn (h ▸ List.mem_cons_self c j')
    have hb' : ']' ∉ j' := fun h => hb (List.mem_cons_of_mem c h)
    have hn' : '\n' ∉ j' := fun h => hn (List.mem_cons_of_mem c h)
    rw [List.cons_append]
    unfold tryAltRelink
    rw [parseRelinkClose_ne hc1, ih hb' hn' htail]
    simp [hc2]

theorem tryAltRelink_missRef {orig a u tail : List Char} (ha1 : ']' ∉ a)
    (ha2 : '\n' ∉ a) (hu3 : ']' ∉ u) (huN : '\n' ∉ u)
    (hscan : scanUrl orig (u ++ ')' :: tail) = none)
    (htail : tail = [] ∨ ∃ t', tail = '\n' :: t') :
    tryAltRelink orig (a ++ ']' :: '(' :: (u ++ ')' :: tail)) = none := by
  induction a with
  | nil =>
    simp only [List.nil_append]
    unfold tryAltRelink
    rw [parseRelinkClose_close, hscan]
    have hj : ('(' :: (u ++ ')' :: tail) : List Char) =
        ('(' :: (u ++ [')'])) ++ tail := by simp
    have hthrough : tryAltRelink orig ('(' :: (u ++ ')' :: tail)) = none := by
      rw [hj]
      refine tryAltRelink_through ?_ ?_ htail
      · intro h
        rcases List.mem_cons.mp h with h | h
        · exact absurd h.symm (by decide)
        · rcases List.mem_append.mp h with h | h
          · exact hu3 h
          · exact absurd (List.mem_singleton.mp h) (by decide)
      · intro h
        rcases List.mem_cons.mp h with h | h
        · exact absurd h.symm (by decide)
        · rcases List.mem_append.mp h with h | h
          · exact huN h
          · exact absurd (List.mem_singleton.mp h) (by decide)
    rw [hthrough]
    simp
  | cons c a' ih =>
    have hc1 : c ≠ ']' := fun h => ha1 (h ▸ List.mem_cons_self c a')
    have hc2 : c ≠ '\n' := fun h => ha2 (h ▸ List.mem_cons_self c a')
    have ha1' : ']' ∉ a' := fun h => ha1 (List.mem_cons_of_mem c h)
    have ha2' : '\n' ∉ a' := fun h => ha2 (List.mem_cons_of_mem c h)
    rw [List.cons_append]
    unfold tryAltRelink
    rw [parseRelinkClose_ne hc1, ih ha1' ha2']
    simp [hc2]

theorem mkRef_explicit (a u z : List Char) :
    mkRef a u ++ z = '!' :: '[' :: (a ++ ']' :: '(' :: (u ++ ')' :: z)) := by
  simp [mkRef, List.append_assoc]

theorem mkRef_length (a u : List Char) :
    (mkRef a u).length = a.length + u.length + 5 := by
  simp [mkRef, List.length_append, List.length_cons]
  omega

theorem relinkMatchAt_mkRef_hit {orig : List Char} (horig : ')' ∉ orig)
    {a u : List Char} (z : List Char) (ha1 : ']' ∉ a) (ha2 : '\n' ∉ a)
    (hsuf : ∃ w, u = w ++ orig) (huP : ')' ∉ u) (huN : '\n' ∉ u) :
    relinkMatchAt orig (mkRef a u ++ z) = some (a, (mkRef a u).length) := by
  obtain ⟨w, rfl⟩ := hsuf
  rw [mkRef_explicit]
  show (tryAltRelink orig _).map _ = _
  have hclose : parseRelinkClose orig (']' :: '(' :: ((w ++ orig) ++ ')' :: z)) =
      some (2 + ((w ++ orig).length + 1)) := by
    rw [parseRelinkClose_close, scanUrl_hit horig z huP huN]
    rfl
  rw [tryAltRelink_spec ha1 ha2 hclose]
  simp only [Option.map_some', Option.some.injEq, Prod.mk.injEq]
  refine ⟨trivial, ?_⟩
  rw [mkRef_length]
  simp [List.length_append]
  omega

theorem relinkMatchAt_mkRef_miss {orig : List Char} (hne : orig ≠ [])
    (horig : ')' ∉ orig) (horigN : '\n' ∉ orig) {a u z : List Char}
    (ha1 : ']' ∉ a) (ha2 : '\n' ∉ a) (hu3 : ']' ∉ u) (huP : ')' ∉ u)
    (huN : '\n' ∉ u) (hnsuf : ¬ ∃ w, u = w ++ orig)
    (hz : z = [] ∨ ∃ t', z = '\n' :: t') :
    relinkMatchAt orig (mkRef a u ++ z) = none := by
  rw [mkRef_explicit]
  show (tryAltRelink orig _).map _ = _
  rw [tryAltRelink_missRef ha1 ha2 hu3 huN
    (scanUrl_blocked hne horig horigN huP huN hnsuf hz) hz]
  rfl

theorem relink_match {orig new x alt : List Char} {n : Nat}
    (h : relinkMatchAt orig x = some (alt, n)) :
    relinkOne orig new x =
      chars "![" ++ alt ++ ']' :: '(' :: new ++
        ')' :: relinkOne orig new (x.drop n) := by
  cases x with
  | nil => exact absurd h (by simp [relinkMatchAt])
  | cons c rest => exact relink_cons_match h

/-! ## Relink characterization -/

theorem relink_refsJoin {orig new : List Char} (hne : orig ≠ []) (hP : ')' ∉ orig)
    (hN : '\n' ∉ orig) :
    ∀ {l : List ((List Char × List Char) × List Char)}, (∀ e ∈ l, refEntryOK e) →
      relinkOne orig new (refsJoin l) = relSpec orig new l := by
  intro l
  induction l with
  | nil => intro _; rfl
  | cons e rest ih =>
    obtain ⟨⟨a, u⟩, s⟩ := e
    intro hl
    obtain ⟨⟨ha1, ha2, ha3⟩, ⟨hu1, hu2, hu3, hu4⟩, hs1, hs2⟩ :=
      hl _ (List.mem_cons_self _ _)
    have hrest : ∀ e ∈ rest, refEntryOK e := fun e he => hl e (List.mem_cons_of_mem _ he)
    obtain ⟨s2, rfl⟩ : ∃ s2, s = '\n' :: s2 := by
      cases s with
      | nil => simp at hs2
      | cons c s2 =>
        simp only [List.take_succ_cons, List.take_zero, List.cons.injEq] at hs2
        exact ⟨s2, by rw [hs2.1]⟩
    have hjoin : refsJoin ((( a, u), '\n' :: s2) :: rest) =
        mkRef a u ++ (('\n' :: s2) ++ refsJoin rest) := by
      simp [refsJoin, List.append_assoc]
    have hz : ('\n' :: s2) ++ refsJoin rest = [] ∨
        ∃ t', ('\n' :: s2) ++ refsJoin rest = '\n' :: t' := Or.inr ⟨s2 ++ refsJoin rest, rfl⟩
    rw [hjoin]
    cases hsuf : orig.isSuffixOf u with
    | true =>
      have hw : ∃ w, u = w ++ orig := suffix_exists.mp hsuf
      have hmatch := relinkMatchAt_mkRef_hit hP (('\n' :: s2) ++ refsJoin rest)
        ha1 ha2 hw hu1 hu2
      rw [relink_match hmatch, List.drop_left]
      have hns : '!' ∉ ('\n' :: s2 : List Char) := hs1
      rw [relink_seg orig new hns, ih hrest]
      show chars "![" ++ a ++ ']' :: '(' :: new ++ ')' ::
          (('\n' :: s2) ++ relSpec orig new rest) = _
      simp only [relSpec, hsuf, if_true]
      simp [mkRef, List.append_assoc]
      rfl
    | false =>
      have hnsuf : ¬ ∃ w, u = w ++ orig := by
        intro hw
        rw [suffix_exists.mpr hw] at hsuf
        cases hsuf
      have hmiss := relinkMatchAt_mkRef_miss hne hP hN ha1 ha2 hu3 hu1 hu2 hnsuf hz
      have hform : mkRef a u ++ (('\n' :: s2) ++ refsJoin rest) =
          '!' :: (('[' :: (a ++ ']' :: '(' :: (u ++ ')' :: ('\n' :: s2)))) ++
            refsJoin rest) := by
        rw [mkRef_explicit]
        simp [List.append_assoc]
      have hmiss2 : relinkMatchAt orig ('!' :: (('[' :: (a ++ ']' :: '(' ::
          (u ++ ')' :: ('\n' :: s2)))) ++ refsJoin rest)) = none := by
        rw [← hform]
        exact hmiss
      rw [hform, relink_cons_nomatch hmiss2]
      have hJ : '!' ∉ ('[' :: (a ++ ']' :: '(' :: (u ++ ')' :: ('\n' :: s2))) :
          List Char) := by
        intro h
        rcases List.mem_cons.mp h with h | h
        · exact absurd h.symm (by decide)
        rcases List.mem_append.mp h with h | h
        · exact ha3 h
        rcases List.mem_cons.mp h with h | h
        · exact absurd h.symm (by decide)
        rcases List.mem_cons.mp h with h | h
        · exact absurd h.symm (by decide)
        rcases List.mem_append.mp h with h | h
        · exact hu4 h
        rcases List.mem_cons.mp h with h | h
        · exact absurd h.symm (by decide)
        · exact hs1 h
      rw [relink_seg orig new hJ, ih hrest]
      simp only [relSpec, hsuf]
      simp [mkRef, List.append_assoc]

theorem relink_docR {orig new s0 : List Char}
    {l : List ((List Char × List Char) × List Char)} (hne : orig ≠ [])
    (hP : ')' ∉ orig) (hN : '\n' ∉ orig) (hs0 : '!' ∉ s0)
    (hl : ∀ e ∈ l, refEntryOK e) :
    relinkOne orig new (docR s0 l) = s0 ++ relSpec orig new l := by
  show relinkOne orig new (s0 ++ refsJoin l) = _
  rw [relink_seg orig new hs0, relink_refsJoin hne hP hN hl]

theorem relSpec_eq_join {orig new : List Char}
    {l : List ((List Char × List Char) × List Char)}
    (h : ∀ e ∈ l, orig.isSuffixOf e.1.2 = false) :
    relSpec orig new l = refsJoin l := by
  induction l with
  | nil => rfl
  | cons e rest ih =>
    obtain ⟨⟨a, u⟩, s⟩ := e
    have hu := h _ (List.mem_cons_self _ _)
    have hrest : ∀ e ∈ rest, orig.isSuffixOf e.1.2 = false :=
      fun e he => h e (List.mem_cons_of_mem _ he)
    simp only [relSpec, refsJoin, hu]
    rw [ih hrest]
    simp

theorem relSpec_as_join (orig new : List Char) :
    ∀ l : List ((List Char × List Char) × List Char),
      relSpec orig new l = refsJoin (l.map
        (fun e => ((e.1.1, if orig.isSuffixOf e.1.2 then new else e.1.2), e.2))) := by
  intro l
  induction l with
  | nil => rfl
  | cons e rest ih =>
    obtain ⟨⟨a, u⟩, s⟩ := e
    simp only [relSpec, List.map_cons, refsJoin, ih]



/-- C7: amended relink contract. On a structured document (an exclamation-free
prefix followed by hygienic image references, each separated by a segment that
starts with a newline), one relink pass rewrites exactly those references whose
URL ends with the original image name taken as a raw character suffix,
replacing the whole URL by the new path while keeping alt texts and segments;
if no URL has the original name as suffix the document is unchanged, and when
the new path is itself hygienic and does not end in the original name a second
pass is the identity on the result. -/
theorem c7_relink_is_suffix_rewrite (orig new s0 : List Char)
    (l : List ((List Char × List Char) × List Char))
    (hne : orig ≠ []) (hP : ')' ∉ orig) (hN : '\n' ∉ orig)
    (hs0 : '!' ∉ s0) (hl : ∀ e ∈ l, refEntryOK e) :
    relinkOne orig new (docR s0 l) =
      docR s0 (l.map (fun e =>
        ((e.1.1, if orig.isSuffixOf e.1.2 then new else e.1.2), e.2)))
    ∧ ((∀ e ∈ l, orig.isSuffixOf e.1.2 = false) →
        relinkOne orig new (docR s0 l) = docR s0 l)
    ∧ ((')' ∉ new ∧ '\n' ∉ new ∧ ']' ∉ new ∧ '!' ∉ new ∧
        orig.isSuffixOf new = false) →
        relinkOne orig new (relinkOne orig new (docR s0 l)) =
          relinkOne orig new (docR s0 l)) := by
  have h1 : relinkOne orig new (docR s0 l) =
      docR s0 (l.map (fun e =>
        ((e.1.1, if orig.isSuffixOf e.1.2 then new else e.1.2), e.2))) := by
    rw [relink_docR hne hP hN hs0 hl, relSpec_as_join]
    rfl
  refine ⟨h1, ?_, ?_⟩
  · intro hmiss
    rw [relink_docR hne hP hN hs0 hl, relSpec_eq_join hmiss]
    rfl
  · rintro ⟨hnP, hnN, hnB, hnE, hnsuf⟩
    rw [h1]
    have hl2 : ∀ e ∈ l.map (fun e =>
        ((e.1.1, if orig.isSuffixOf e.1.2 then new else e.1.2), e.2)),
        refEntryOK e := by
      intro x hx
      obtain ⟨e, he, rfl⟩ := List.mem_map.mp hx
      obtain ⟨ha, ⟨hu1, hu2, hu3, hu4⟩, hs⟩ := hl e he
      refine ⟨ha, ?_, hs⟩
      cases hc : orig.isSuffixOf e.1.2 with
      | true => simp only [hc, if_true]; exact ⟨hnP, hnN, hnB, hnE⟩
      | false => simp only [hc, if_false]; exact ⟨hu1, hu2, hu3, hu4⟩
    have hmiss2 : ∀ e ∈ l.map (fun e =>
        ((e.1.1, if orig.isSuffixOf e.1.2 then new else e.1.2), e.2)),
        orig.isSuffixOf e.1.2 = false := by
      intro x hx
      obtain ⟨e, he, rfl⟩ := List.mem_map.mp hx
      cases hc : orig.isSuffixOf e.1.2 with
      | true => simp only [hc, if_true]; exact hnsuf
      | false => simp only [hc, if_false]; exact hc
    rw [relink_docR hne hP hN hs0 hl2, relSpec_eq_join hmiss2]
    rfl

/-- Witness for C7: a reference whose URL media/photo.png ends with
photo.png is rewritten to the new path, while other.gif is untouched. -/
theorem c7_relink_is_suffix_rewrite_witness :
    relinkOne (chars "photo.png") (chars "images/image_001.png")
      (docR (chars "Doc\n")
        [((chars "alt", chars "media/photo.png"), chars "\nmid"),
         ((chars "b", chars "other.gif"), chars "\n")]) =
    docR (chars "Doc\n")
        [((chars "alt", chars "images/image_001.png"), chars "\nmid"),
         ((chars "b", chars "other.gif"), chars "\n")] := by
  have h := c7_relink_is_suffix_rewrite (chars "photo.png")
    (chars "images/image_001.png") (chars "Doc\n")
    [((chars "alt", chars "media/photo.png"), chars "\nmid"),
     ((chars "b", chars "other.gif"), chars "\n")]
    (by decide) (by decide) (by decide) (by decide) (by decide)
  rw [h.1]
  rfl



/-! ## Newline-run machinery for C3 -/

theorem hasTriple_three (x : List Char) :
    hasTriple ('\n' :: '\n' :: '\n' :: x) = true := rfl

theorem hasTriple_cons_ne {c : Char} (x : List Char) (h : c ≠ '\n') :
    hasTriple (c :: x) = hasTriple x := by
  conv_lhs => unfold hasTriple
  split
  · next heq => exact absurd (List.cons.injEq .. ▸ heq).1 h
  · next c2 rest hno heq =>
    have h2 : rest = x := ((List.cons.injEq .. ▸ heq).2).symm
    rw [h2]
  · next heq => exact absurd heq (by simp)

theorem leadNL_nil : leadNL [] = 0 := rfl

theorem leadNL_cons_ne {c : Char} (x : List Char) (h : c ≠ '\n') :
    leadNL (c :: x) = 0 := by
  simp [leadNL, List.takeWhile, h]

theorem leadNL_cons_nl (x : List Char) : leadNL ('\n' :: x) = 1 + leadNL x := by
  simp [leadNL, List.takeWhile]
  omega

theorem leadNL_ge2_shape {x : List Char} (h : 2 ≤ leadNL x) :
    ∃ y, x = '\n' :: '\n' :: y := by
  cases x with
  | nil => simp [leadNL_nil] at h
  | cons c t =>
    by_cases hc : c = '\n'
    · subst hc
      cases t with
      | nil => rw [leadNL_cons_nl, leadNL_nil] at h; omega
      | cons d u =>
        by_cases hd : d = '\n'
        · subst hd; exact ⟨u, rfl⟩
        · rw [leadNL_cons_nl, leadNL_cons_ne u hd] at h; omega
    · rw [leadNL_cons_ne t hc] at h; omega

theorem hasTriple_nl_le1 {x : List Char} (h : leadNL x ≤ 1) :
    hasTriple ('\n' :: x) = hasTriple x := by
  cases x with
  | nil => rfl
  | cons c t =>
    by_cases hc : c = '\n'
    · subst hc
      cases t with
      | nil => rfl
      | cons d u =>
        have hd : d ≠ '\n' := by
          intro hd
          subst hd
          rw [leadNL_cons_nl, leadNL_cons_nl] at h
          omega
        show hasTriple ('\n' :: '\n' :: d :: u) = hasTriple ('\n' :: d :: u)
        conv_lhs => unfold hasTriple
        split
        · next heq =>
          exact absurd ((List.cons.injEq .. ▸ (List.cons.injEq .. ▸
            (List.cons.injEq .. ▸ heq).2).2).1) hd
        · next c2 rest hno heq =>
          have h2 : rest = '\n' :: d :: u := ((List.cons.injEq .. ▸ heq).2).symm
          rw [h2]
        · next heq => exact absurd heq (by simp)
    · rw [hasTriple_cons_ne t hc]
      show hasTriple ('\n' :: c :: t) = hasTriple t
      conv_lhs => unfold hasTriple
      split
      · next heq =>
        exact absurd ((List.cons.injEq .. ▸ (List.cons.injEq .. ▸ heq).2).1) hc
      · next c2 rest hno heq =>
        have h2 : rest = c :: t := ((List.cons.injEq .. ▸ heq).2).symm
        rw [h2, hasTriple_cons_ne t hc]
      · next heq => exact absurd heq (by simp)

theorem hasTriple_false_tail {c : Char} {x : List Char}
    (h : hasTriple (c :: x) = false) : hasTriple x = false := by
  by_cases hc : c = '\n'
  · subst hc
    by_cases hx : leadNL x ≤ 1
    · rw [hasTriple_nl_le1 hx] at h; exact h
    · have h2 : 2 ≤ leadNL x := by omega
      obtain ⟨y, rfl⟩ := leadNL_ge2_shape h2
      rw [hasTriple_three] at h
      cases h
  · rw [hasTriple_cons_ne x hc] at h; exact h

theorem hasTriple_cons_true {c : Char} {x : List Char}
    (h : hasTriple x = true) : hasTriple (c :: x) = true := by
  cases hv : hasTriple (c :: x) with
  | true => rfl
  | false => rw [hasTriple_false_tail hv] at h; cases h

theorem hasTriple_append_nofree {p : List Char} (x : List Char) (hp : '\n' ∉ p) :
    hasTriple (p ++ x) = hasTriple x := by
  induction p with
  | nil => rfl
  | cons c t ih =>
    have hc : c ≠ '\n' := fun h => hp (h ▸ List.mem_cons_self c t)
    have ht : '\n' ∉ t := fun h => hp (List.mem_cons_of_mem c h)
    rw [List.cons_append, hasTriple_cons_ne _ hc, ih ht]

theorem hasTriple_nofree {x : List Char} (h : '\n' ∉ x) : hasTriple x = false := by
  have := hasTriple_append_nofree (p := x) [] h
  simpa using this

theorem hasTriple_append_right {b : List Char} (a : List Char)
    (h : hasTriple b = true) : hasTriple (a ++ b) = true := by
  induction a with
  | nil => exact h
  | cons c t ih => exact hasTriple_cons_true ih

theorem hasTriple_append_left {a : List Char} (b : List Char)
    (h : hasTriple a = true) : hasTriple (a ++ b) = true := by
  induction a with
  | nil => cases h
  | cons c t ih =>
    cases hv : hasTriple t with
    | true => exact hasTriple_cons_true (ih hv)
    | false =>
      have hc : c = '\n' := by
        by_contra hc
        rw [hasTriple_cons_ne t hc, hv] at h
        cases h
      subst hc
      have h2 : 2 ≤ leadNL t := by
        by_contra h2
        rw [hasTriple_nl_le1 (by omega), hv] at h
        cases h
      obtain ⟨y, rfl⟩ := leadNL_ge2_shape h2
      rw [List.cons_append, List.cons_append, List.cons_append]
      exact hasTriple_three _



/-! ## The collapsing stage leaves no triple newline -/

theorem collapseGo_nil : ∀ f, collapseNewlinesGo f [] = []
  | 0 => rfl
  | _ + 1 => rfl

theorem collapseGo_three (f : Nat) (rest : List Char) :
    collapseNewlinesGo (f + 1) ('\n' :: '\n' :: '\n' :: rest) =
      '\n' :: '\n' :: collapseNewlinesGo f (rest.dropWhile (· = '\n')) := rfl

theorem collapseGo_cons_ne {c : Char} (h : c ≠ '\n') (f : Nat) (rest : List Char) :
    collapseNewlinesGo (f + 1) (c :: rest) = c :: collapseNewlinesGo f rest := by
  conv_lhs => unfold collapseNewlinesGo
  split
  · next heq => exact absurd heq (by omega)
  · next f2 rest2 hf heq => exact absurd (List.cons.injEq .. ▸ heq).1 h
  · next f2 c2 rest2 hno hf heq =>
    have h1 : c2 = c := ((List.cons.injEq .. ▸ heq).1).symm
    have h2 : rest2 = rest := ((List.cons.injEq .. ▸ heq).2).symm
    have h3 : f2 = f := by omega
    rw [h1, h2, h3]
  · next f2 hf heq => exact absurd heq (by simp)

theorem collapseGo_nl {rest : List Char} (hr : leadNL rest ≤ 1) (f : Nat) :
    collapseNewlinesGo (f + 1) ('\n' :: rest) = '\n' :: collapseNewlinesGo f rest := by
  cases rest with
  | nil => rfl
  | cons d u =>
    by_cases hd : d = '\n'
    · subst hd
      have hu : leadNL u = 0 := by
        rw [leadNL_cons_nl] at hr
        omega
      cases u with
      | nil => rfl
      | cons e v =>
        have he : e ≠ '\n' := by
          intro he
          rw [he, leadNL_cons_nl] at hu
          omega
        conv_lhs => unfold collapseNewlinesGo
        split
        · next heq => exact absurd heq (by omega)
        · next f2 rest2 hf heq =>
          exact absurd ((List.cons.injEq .. ▸ (List.cons.injEq .. ▸
            (List.cons.injEq .. ▸ heq).2).2).1) he
        · next f2 c2 rest2 hno hf heq =>
          have h1 : c2 = '\n' := ((List.cons.injEq .. ▸ heq).1).symm
          have h2 : rest2 = '\n' :: e :: v := ((List.cons.injEq .. ▸ heq).2).symm
          have h3 : f2 = f := by omega
          rw [h1, h2, h3]
        · next f2 hf heq => exact absurd heq (by simp)
    · conv_lhs => unfold collapseNewlinesGo
      split
      · next heq => exact absurd heq (by omega)
      · next f2 rest2 hf heq =>
        exact absurd ((List.cons.injEq .. ▸ (List.cons.injEq .. ▸ heq).2).1) hd
      · next f2 c2 rest2 hno hf heq =>
        have h1 : c2 = '\n' := ((List.cons.injEq .. ▸ heq).1).symm
        have h2 : rest2 = d :: u := ((List.cons.injEq .. ▸ heq).2).symm
        have h3 : f2 = f := by omega
        rw [h1, h2, h3]
      · next f2 hf heq => exact absurd heq (by simp)

theorem leadNL_dropWhile (x : List Char) : leadNL (x.dropWhile (· = '\n')) = 0 := by
  induction x with
  | nil => rfl
  | cons c t ih =>
    by_cases hc : c = '\n'
    · simp only [List.dropWhile, hc]
      simpa using ih
    · rw [List.dropWhile_cons_of_neg (by simpa using hc)]
      exact leadNL_cons_ne t hc

theorem collapse_inv : ∀ (f : Nat) (l : List Char), l.length ≤ f →
    hasTriple (collapseNewlinesGo f l) = false ∧
    leadNL (collapseNewlinesGo f l) ≤ leadNL l ∧
    leadNL (collapseNewlinesGo f l) ≤ 2 := by
  intro f
  induction f with
  | zero =>
    intro l hl
    have hn : l = [] := List.length_eq_zero.mp (Nat.le_zero.mp hl)
    subst hn
    exact ⟨rfl, Nat.le_refl _, by decide⟩
  | succ f ih =>
    intro l hl
    cases l with
    | nil => rw [collapseGo_nil]; exact ⟨rfl, Nat.le_refl _, by decide⟩
    | cons c rest =>
      by_cases hc : c = '\n'
      · subst hc
        by_cases h2 : 2 ≤ leadNL rest
        · obtain ⟨y, rfl⟩ := leadNL_ge2_shape h2
          rw [collapseGo_three]
          have hlen : (y.dropWhile (· = '\n')).length ≤ f := by
            have hd := dropWhile_length_le (· = '\n') y
            simp only [List.length_cons] at hl
            omega
          obtain ⟨hT, hle, hle2⟩ := ih (y.dropWhile (· = '\n')) hlen
          have hzero : leadNL (collapseNewlinesGo f (y.dropWhile (· = '\n'))) = 0 := by
            have := leadNL_dropWhile y
            omega
          refine ⟨?_, ?_, ?_⟩
          · rw [hasTriple_nl_le1 (by rw [leadNL_cons_nl]; omega),
              hasTriple_nl_le1 (by omega)]
            exact hT
          · rw [leadNL_cons_nl, leadNL_cons_nl, leadNL_cons_nl, leadNL_cons_nl,
              leadNL_cons_nl]
            omega
          · rw [leadNL_cons_nl, leadNL_cons_nl]
            omega
        · rw [collapseGo_nl (by omega)]
          have hlen : rest.length ≤ f := by
            simp only [List.length_cons] at hl
            omega
          obtain ⟨hT, hle, hle2⟩ := ih rest hlen
          refine ⟨?_, ?_, ?_⟩
          · rw [hasTriple_nl_le1 (by omega)]
            exact hT
          · rw [leadNL_cons_nl, leadNL_cons_nl]
            omega
          · rw [leadNL_cons_nl]
            omega
      · rw [collapseGo_cons_ne hc]
        have hlen : rest.length ≤ f := by
          simp only [List.length_cons] at hl
          omega
        obtain ⟨hT, hle, hle2⟩ := ih rest hlen
        refine ⟨?_, ?_, ?_⟩
        · rw [hasTriple_cons_ne _ hc]
          exact hT
        · rw [leadNL_cons_ne _ hc]
          omega
        · rw [leadNL_cons_ne _ hc]
          omega

theorem hasTriple_collapse (l : List Char) :
    hasTriple (collapseNewlines l) = false :=
  (collapse_inv l.length l (Nat.le_refl _)).1



/-! ## Lines and joining: shape lemmas -/

theorem splitNL_cons_nl (rest : List Char) :
    splitNL ('\n' :: rest) = [] :: splitNL rest := rfl

theorem splitNL_cons_ne {c : Char} (h : c ≠ '\n') {rest : List Char}
    {x : List Char} {xs : List (List Char)} (hr : splitNL rest = x :: xs) :
    splitNL (c :: rest) = (c :: x) :: xs := by
  conv_lhs => unfold splitNL
  split
  · next heq => exact absurd heq (by simp)
  · next rest2 heq => exact absurd (List.cons.injEq .. ▸ heq).1 h
  · next c2 rest2 hno heq =>
    have h1 : c2 = c := ((List.cons.injEq .. ▸ heq).1).symm
    have h2 : rest2 = rest := ((List.cons.injEq .. ▸ heq).2).symm
    rw [h1, h2, hr]

theorem splitNL_shape (l : List Char) :
    ∃ x xs, splitNL l = x :: xs := by
  induction l with
  | nil => exact ⟨[], [], rfl⟩
  | cons c rest ih =>
    by_cases hc : c = '\n'
    · subst hc; exact ⟨[], splitNL rest, rfl⟩
    · obtain ⟨x, xs, hr⟩ := ih
      exact ⟨c :: x, xs, splitNL_cons_ne hc hr⟩

theorem joinNL_splitNL (l : List Char) : joinNL (splitNL l) = l := by
  induction l with
  | nil => rfl
  | cons c rest ih =>
    by_cases hc : c = '\n'
    · subst hc
      obtain ⟨x, xs, hr⟩ := splitNL_shape rest
      rw [splitNL_cons_nl, hr]
      show '\n' :: joinNL (x :: xs) = '\n' :: rest
      rw [← hr, ih]
    · obtain ⟨x, xs, hr⟩ := splitNL_shape rest
      rw [splitNL_cons_ne hc hr]
      cases xs with
      | nil =>
        show c :: x = c :: rest
        rw [← ih, hr]
        rfl
      | cons y ys =>
        show (c :: x) ++ '\n' :: joinNL (y :: ys) = c :: rest
        rw [List.cons_append]
        have hx : x ++ '\n' :: joinNL (y :: ys) = joinNL (x :: y :: ys) := rfl
        rw [hx, ← hr, ih]

theorem splitNL_nofree {l : List Char} :
    ∀ x ∈ splitNL l, '\n' ∉ x := by
  induction l with
  | nil =>
    intro x hx
    rcases List.mem_singleton.mp hx with rfl
    simp
  | cons c rest ih =>
    by_cases hc : c = '\n'
    · subst hc
      rw [splitNL_cons_nl]
      intro x hx
      rcases List.mem_cons.mp hx with rfl | hx
      · simp
      · exact ih x hx
    · obtain ⟨x0, xs, hr⟩ := splitNL_shape rest
      rw [splitNL_cons_ne hc hr]
      intro x hx
      rcases List.mem_cons.mp hx with rfl | hx
      · intro hmem
        rcases List.mem_cons.mp hmem with h | h
        · exact hc h.symm
        · exact ih x0 (hr ▸ List.mem_cons_self x0 xs) h
      · exact ih x (hr ▸ List.mem_cons_of_mem x0 hx)

theorem mem_joinNL {c : Char} : ∀ {ls : List (List Char)}, c ∈ joinNL ls →
    (∃ x ∈ ls, c ∈ x) ∨ c = '\n' := by
  intro ls
  induction ls with
  | nil => intro h; exact absurd h (List.not_mem_nil c)
  | cons a tl ih =>
    intro h
    cases tl with
    | nil => exact Or.inl ⟨a, List.mem_cons_self a [], h⟩
    | cons b tl2 =>
      have h2 : c ∈ a ++ '\n' :: joinNL (b :: tl2) := h
      rcases List.mem_append.mp h2 with h3 | h3
      · exact Or.inl ⟨a, List.mem_cons_self a _, h3⟩
      · rcases List.mem_cons.mp h3 with h4 | h4
        · exact Or.inr h4
        · rcases ih h4 with ⟨x, hx, hcx⟩ | h5
          · exact Or.inl ⟨x, List.mem_cons_of_mem a hx, hcx⟩
          · exact Or.inr h5

theorem mem_joinNL_of {c : Char} : ∀ {ls : List (List Char)} {x : List Char},
    x ∈ ls → c ∈ x → c ∈ joinNL ls := by
  intro ls
  induction ls with
  | nil => intro x hx; exact absurd hx (by simp)
  | cons a tl ih =>
    intro x hx hcx
    rcases List.mem_cons.mp hx with rfl | hx2
    · cases tl with
      | nil => exact hcx
      | cons b tl2 =>
        show c ∈ x ++ '\n' :: joinNL (b :: tl2)
        exact List.mem_append.mpr (Or.inl hcx)
    · cases tl with
      | nil => exact absurd hx2 (by simp)
      | cons b tl2 =>
        show c ∈ a ++ '\n' :: joinNL (b :: tl2)
        exact List.mem_append.mpr (Or.inr (List.mem_cons_of_mem _ (ih hx2 hcx)))

theorem mem_of_splitNL {l x : List Char} {c : Char}
    (hx : x ∈ splitNL l) (hc : c ∈ x) : c ∈ l := by
  have h := mem_joinNL_of hx hc
  rwa [joinNL_splitNL] at h

/-! ## Window patterns on line emptiness -/

theorem bpat_cons1 (x : Bool) (ys : List Bool) :
    bpat (x :: false :: ys) = bpat (false :: ys) := by
  cases ys with
  | nil => rfl
  | cons e t =>
    cases t with
    | nil => rfl
    | cons g t2 =>
      show ((false && e) || bpat (false :: e :: g :: t2)) = bpat (false :: e :: g :: t2)
      simp

theorem bpat_cons2 (x b : Bool) (ys : List Bool) :
    bpat (x :: b :: false :: ys) = bpat (b :: false :: ys) := by
  cases ys with
  | nil => rfl
  | cons g t =>
    show ((b && false) || bpat (b :: false :: g :: t)) = bpat (b :: false :: g :: t)
    simp

theorem hasTriple_joinNL : ∀ (ls : List (List Char)), (∀ x ∈ ls, '\n' ∉ x) →
    hasTriple (joinNL ls) = bpat (ls.map (·.isEmpty)) := by
  intro ls
  induction ls with
  | nil => intro _; rfl
  | cons a tl ih =>
    intro hls
    have ha : '\n' ∉ a := hls a (List.mem_cons_self a tl)
    have htl : ∀ x ∈ tl, '\n' ∉ x := fun x hx => hls x (List.mem_cons_of_mem a hx)
    cases tl with
    | nil =>
      show hasTriple a = bpat [a.isEmpty]
      rw [hasTriple_nofree ha]
      rfl
    | cons b tl2 =>
      have hb : '\n' ∉ b := htl b (List.mem_cons_self b tl2)
      show hasTriple (a ++ '\n' :: joinNL (b :: tl2)) =
        bpat (a.isEmpty :: b.isEmpty :: tl2.map (·.isEmpty))
      rw [hasTriple_append_nofree _ ha]
      cases tl2 with
      | nil =>
        show hasTriple ('\n' :: b) = bpat [a.isEmpty, b.isEmpty]
        have hle : leadNL b ≤ 1 := by
          cases b with
          | nil => simp [leadNL]
          | cons d u =>
            have hd : d ≠ '\n' := fun h => hb (h ▸ List.mem_cons_self d u)
            rw [leadNL_cons_ne u hd]
            omega
        rw [hasTriple_nl_le1 hle, hasTriple_nofree hb]
        rfl
      | cons c tl3 =>
        cases b with
        | cons d t =>
          have hd : d ≠ '\n' := fun h => hb (h ▸ List.mem_cons_self d t)
          have hjd : joinNL ((d :: t) :: c :: tl3) =
              d :: (t ++ '\n' :: joinNL (c :: tl3)) := rfl
          have h0 : leadNL (joinNL ((d :: t) :: c :: tl3)) = 0 := by
            rw [hjd]
            exact leadNL_cons_ne _ hd
          rw [hasTriple_nl_le1 (by omega), ih htl]
          show bpat (false :: c.isEmpty :: tl3.map (·.isEmpty)) =
            bpat (a.isEmpty :: false :: c.isEmpty :: tl3.map (·.isEmpty))
          rw [bpat_cons1]
        | nil =>
          have hc0 : '\n' ∉ c := htl c (List.mem_cons_of_mem []
            (List.mem_cons_self c tl3))
          cases c with
          | cons e u =>
            have he : e ≠ '\n' := fun h => hc0 (h ▸ List.mem_cons_self e u)
            have hJ : leadNL (joinNL ((e :: u) :: tl3)) = 0 := by
              cases tl3 with
              | nil => exact leadNL_cons_ne _ he
              | cons f tl4 =>
                show leadNL (e :: (u ++ '\n' :: joinNL (f :: tl4))) = 0
                exact leadNL_cons_ne _ he
            have hjoin : joinNL ([] :: (e :: u) :: tl3) =
                '\n' :: joinNL ((e :: u) :: tl3) := rfl
            show hasTriple ('\n' :: joinNL ([] :: (e :: u) :: tl3)) =
              bpat (a.isEmpty :: true :: false :: tl3.map (·.isEmpty))
            rw [hjoin, hasTriple_nl_le1 (by rw [leadNL_cons_nl]; omega)]
            have hih := ih htl
            rw [hjoin] at hih
            rw [hih]
            show bpat (true :: false :: tl3.map (·.isEmpty)) =
              bpat (a.isEmpty :: true :: false :: tl3.map (·.isEmpty))
            rw [bpat_cons2]
          | nil =>
            cases tl3 with
            | nil =>
              show hasTriple ['\n', '\n'] = bpat [a.isEmpty, true, true]
              rfl
            | cons f tl4 =>
              show hasTriple ('\n' :: '\n' :: '\n' :: joinNL (f :: tl4)) =
                bpat (a.isEmpty :: true :: true :: f.isEmpty :: tl4.map (·.isEmpty))
              rw [hasTriple_three]
              show true = ((true && true) || bpat (true :: true :: f.isEmpty ::
                tl4.map (·.isEmpty)))
              simp



/-! ## Stages that are the identity on clean inputs, and character budgets -/

theorem stripCommentsGo_noLt : ∀ (f : Nat) {l : List Char}, '<' ∉ l →
    stripCommentsGo f l = l := by
  intro f
  induction f with
  | zero => intro l _; rfl
  | succ f ih =>
    intro l hl
    cases l with
    | nil => rfl
    | cons c rest =>
      have hc : c ≠ '<' := fun h => hl (h ▸ List.mem_cons_self c rest)
      have hrest : '<' ∉ rest := fun h => hl (List.mem_cons_of_mem c h)
      conv_lhs => unfold stripCommentsGo
      split
      · next heq => exact absurd heq (by omega)
      · next f2 rest2 hf heq => exact absurd (List.cons.injEq .. ▸ heq).1 hc
      · next f2 c2 rest2 hno hf heq =>
        have h1 : c2 = c := ((List.cons.injEq .. ▸ heq).1).symm
        have h2 : rest2 = rest := ((List.cons.injEq .. ▸ heq).2).symm
        have h3 : f2 = f := by omega
        rw [h1, h2, h3, ih hrest]
      · next f2 hf heq => exact absurd heq (by simp)

theorem stripComments_noLt {l : List Char} (h : '<' ∉ l) : stripComments l = l :=
  stripCommentsGo_noLt l.length h

theorem stripTagsGo_noLt : ∀ (f : Nat) {l : List Char}, '<' ∉ l →
    stripTagsGo f l = l := by
  intro f
  induction f with
  | zero => intro l _; rfl
  | succ f ih =>
    intro l hl
    cases l with
    | nil => rfl
    | cons c rest =>
      have hc : c ≠ '<' := fun h => hl (h ▸ List.mem_cons_self c rest)
      have hrest : '<' ∉ rest := fun h => hl (List.mem_cons_of_mem c h)
      conv_lhs => unfold stripTagsGo
      split
      · next heq => exact absurd heq (by omega)
      · next f2 rest2 hf heq => exact absurd (List.cons.injEq .. ▸ heq).1 hc
      · next f2 c2 rest2 hno hf heq =>
        have h1 : c2 = c := ((List.cons.injEq .. ▸ heq).1).symm
        have h2 : rest2 = rest := ((List.cons.injEq .. ▸ heq).2).symm
        have h3 : f2 = f := by omega
        rw [h1, h2, h3, ih hrest]
      · next f2 hf heq => exact absurd heq (by simp)

theorem stripTags_noLt {l : List Char} (h : '<' ∉ l) : stripTags l = l :=
  stripTagsGo_noLt l.length h

theorem unescapeHtmlGo_noAmp : ∀ (f : Nat) {l : List Char}, '&' ∉ l →
    unescapeHtmlGo f l = l := by
  intro f
  induction f with
  | zero => intro l _; rfl
  | succ f ih =>
    intro l hl
    cases l with
    | nil => rfl
    | cons c rest =>
      have hc : c ≠ '&' := fun h => hl (h ▸ List.mem_cons_self c rest)
      have hrest : '&' ∉ rest := fun h => hl (List.mem_cons_of_mem c h)
      conv_lhs => unfold unescapeHtmlGo
      split
      · next heq => exact absurd heq (by omega)
      · next f2 rest2 hf heq => exact absurd (List.cons.injEq .. ▸ heq).1 hc
      · next f2 c2 rest2 hno hf heq =>
        have h1 : c2 = c := ((List.cons.injEq .. ▸ heq).1).symm
        have h2 : rest2 = rest := ((List.cons.injEq .. ▸ heq).2).symm
        have h3 : f2 = f := by omega
        rw [h1, h2, h3, ih hrest]
      · next f2 hf heq => exact absurd heq (by simp)

theorem unescapeHtml_noAmp {l : List Char} (h : '&' ∉ l) : unescapeHtml l = l :=
  unescapeHtmlGo_noAmp l.length h

theorem dropAfterFmClose_mem : ∀ {l r : List Char}, dropAfterFmClose l = some r →
    ∀ {c : Char}, c ∈ r → c ∈ l := by
  intro l
  induction l with
  | nil => intro r hr; cases hr
  | cons a t ih =>
    intro r hr c hc
    conv at hr => lhs; unfold dropAfterFmClose
    split at hr
    · next rest heq =>
      have hrr : r = rest := by
        injection hr with h1
        exact h1.symm
      rw [heq]
      subst hrr
      exact List.mem_cons_of_mem _ (List.mem_cons_of_mem _ (List.mem_cons_of_mem _
        (List.mem_cons_of_mem _ (List.mem_cons_of_mem _ hc))))
    · next c2 rest2 hno heq =>
      have h2 : rest2 = t := ((List.cons.injEq .. ▸ heq).2).symm
      rw [h2] at hr
      exact List.mem_cons_of_mem a (ih hr hc)
    · next heq => exact absurd heq (by simp)

theorem stripFrontmatter_mem {l : List Char} {c : Char}
    (h : c ∈ stripFrontmatter l) : c ∈ l := by
  unfold stripFrontmatter at h
  split at h
  · next a rest =>
    split at h
    · next r2 hfm =>
      exact List.mem_cons_of_mem _ (List.mem_cons_of_mem _ (List.mem_cons_of_mem _
        (List.mem_cons_of_mem _ (dropAfterFmClose_mem hfm h))))
    · exact h
  · exact h

theorem collapseGo_mem : ∀ (f : Nat) {l : List Char} {c : Char},
    c ∈ collapseNewlinesGo f l → c ∈ l := by
  intro f
  induction f with
  | zero => intro l c h; exact h
  | succ f ih =>
    intro l c h
    cases l with
    | nil => rw [collapseGo_nil] at h; exact h
    | cons a rest =>
      by_cases ha : a = '\n'
      · subst ha
        by_cases h2 : 2 ≤ leadNL rest
        · obtain ⟨y, rfl⟩ := leadNL_ge2_shape h2
          rw [collapseGo_three] at h
          rcases List.mem_cons.mp h with rfl | h3
          · exact List.mem_cons_self _ _
          rcases List.mem_cons.mp h3 with rfl | h4
          · exact List.mem_cons_self _ _
          · have h5 := ih h4
            have h6 := List.dropWhile_subset (· = '\n') (l := y) h5
            exact List.mem_cons_of_mem _ (List.mem_cons_of_mem _
              (List.mem_cons_of_mem _ h6))
        · rw [collapseGo_nl (by omega)] at h
          rcases List.mem_cons.mp h with rfl | h3
          · exact List.mem_cons_self _ _
          · exact List.mem_cons_of_mem _ (ih h3)
      · rw [collapseGo_cons_ne ha] at h
        rcases List.mem_cons.mp h with rfl | h3
        · exact List.mem_cons_self _ _
        · exact List.mem_cons_of_mem _ (ih h3)

theorem collapse_mem {l : List Char} {c : Char}
    (h : c ∈ collapseNewlines l) : c ∈ l :=
  collapseGo_mem l.length h

theorem mem_fixHeaderLine {x : List Char} {c : Char} (h : c ∈ fixHeaderLine x) :
    c ∈ x ∨ c = '#' ∨ c = ' ' := by
  simp only [fixHeaderLine] at h
  split at h
  · exact Or.inl h
  · split at h
    · split at h
      · rcases List.mem_append.mp h with h2 | h2
        · exact Or.inr (Or.inl (List.eq_of_mem_replicate h2))
        · rcases List.mem_cons.mp h2 with rfl | h3
          · exact Or.inr (Or.inr rfl)
          · rcases List.mem_singleton.mp h3 with rfl
            exact Or.inr (Or.inl rfl)
      · exact Or.inl h
    · split at h
      · split at h
        · rcases List.mem_append.mp h with h2 | h2
          · exact Or.inr (Or.inl (List.eq_of_mem_replicate h2))
          · rcases List.mem_cons.mp h2 with rfl | h3
            · exact Or.inr (Or.inr rfl)
            rcases List.mem_cons.mp h3 with rfl | h4
            · exact Or.inr (Or.inl rfl)
            · exact Or.inl (List.drop_subset _ x h4)
        · exact Or.inl h
      · rcases List.mem_append.mp h with h2 | h2
        · exact Or.inr (Or.inl (List.eq_of_mem_replicate h2))
        · rcases List.mem_cons.mp h2 with rfl | h3
          · exact Or.inr (Or.inr rfl)
          · exact Or.inl (List.drop_subset _ x h3)

theorem mem_fixHeaders {l : List Char} {c : Char} (h : c ∈ fixHeaders l) :
    c ∈ l ∨ c = '#' ∨ c = ' ' ∨ c = '\n' := by
  rcases mem_joinNL h with ⟨y, hy, hcy⟩ | hnl
  · obtain ⟨x, hx, rfl⟩ := List.mem_map.mp hy
    rcases mem_fixHeaderLine hcy with h2 | h2 | h2
    · exact Or.inl (mem_of_splitNL hx h2)
    · exact Or.inr (Or.inl h2)
    · exact Or.inr (Or.inr (Or.inl h2))
  · exact Or.inr (Or.inr (Or.inr hnl))



/-! ## Header fixing, renumbering and stripping preserve the no-triple property -/

theorem fixHeaderLine_ne_nil {x : List Char} (h : x ≠ []) : fixHeaderLine x ≠ [] := by
  simp only [fixHeaderLine]
  split
  · exact h
  · split
    · split
      · simp
      · exact h
    · split
      · split
        · simp
        · exact h
      · simp

theorem fixHeaderLine_isEmpty (x : List Char) :
    (fixHeaderLine x).isEmpty = x.isEmpty := by
  cases hx : x with
  | nil => rfl
  | cons a t =>
    have h1 : fixHeaderLine (a :: t) ≠ [] := fixHeaderLine_ne_nil (by simp)
    cases hy : fixHeaderLine (a :: t) with
    | nil => exact absurd hy h1
    | cons b u => rfl

theorem map_isEmpty_fixHeaderLine (ls : List (List Char)) :
    ((ls.map fixHeaderLine).map (·.isEmpty)) = ls.map (·.isEmpty) := by
  induction ls with
  | nil => rfl
  | cons a t ih => simp only [List.map_cons, fixHeaderLine_isEmpty, ih]

theorem fixHeaderLine_nofree {x : List Char} (h : '\n' ∉ x) :
    '\n' ∉ fixHeaderLine x := by
  intro hm
  rcases mem_fixHeaderLine hm with h2 | h2 | h2
  · exact h h2
  · exact absurd h2 (by decide)
  · exact absurd h2 (by decide)

theorem hasTriple_fixHeaders {l : List Char} (h : hasTriple l = false) :
    hasTriple (fixHeaders l) = false := by
  have hnf : ∀ x ∈ (splitNL l).map fixHeaderLine, '\n' ∉ x := by
    intro x hx
    obtain ⟨y, hy, rfl⟩ := List.mem_map.mp hx
    exact fixHeaderLine_nofree (splitNL_nofree y hy)
  rw [fixHeaders, hasTriple_joinNL _ hnf, map_isEmpty_fixHeaderLine,
    ← hasTriple_joinNL _ splitNL_nofree, joinNL_splitNL]
  exact h

theorem parseItem_some_ne {l : List Char} {n : Nat} {r : List Char}
    (h : parseItem l = some (n, r)) : l ≠ [] := by
  intro hl
  rw [hl] at h
  cases h

theorem parseItem_rest_mem {l : List Char} {n : Nat} {r : List Char}
    (h : parseItem l = some (n, r)) : ∀ {c : Char}, c ∈ r → c ∈ l := by
  intro c hc
  simp only [parseItem] at h
  split at h
  · cases h
  · split at h
    · next c0 rest heq =>
      split at h
      · have hr : r = rest := by
          injection h with h2
          exact ((Prod.mk.injEq .. ▸ h2).2).symm
        subst hr
        have h3 : c ∈ l.drop (l.takeWhile isDigitCh).length := by
          rw [heq]
          exact List.mem_cons_of_mem _ (List.mem_cons_of_mem _ hc)
        exact List.drop_subset _ l h3
      · cases h
    · cases h

theorem renumStep_snd_isEmpty (c : Nat) (l : List Char) :
    (renumStep c l).2.isEmpty = l.isEmpty := by
  simp only [renumStep]
  split
  · next n r hsome =>
    have hne : l ≠ [] := parseItem_some_ne hsome
    cases hl : l with
    | nil => exact absurd hl hne
    | cons a t =>
      cases hnat : natLit (if n = 1 then c + 1 else n) with
      | nil => rfl
      | cons b u => rfl
  · rfl

theorem renumStep_snd_nofree {c : Nat} {l : List Char} (h : '\n' ∉ l) :
    '\n' ∉ (renumStep c l).2 := by
  simp only [renumStep]
  split
  · next n r hsome =>
    intro hm
    rcases List.mem_append.mp hm with h2 | h2
    · exact absurd (natLit_digits _ _ h2) (by decide)
    rcases List.mem_cons.mp h2 with h3 | h3
    · exact absurd h3 (by decide)
    rcases List.mem_cons.mp h3 with h4 | h4
    · exact absurd h4 (by decide)
    · exact h (parseItem_rest_mem hsome h4)
  · exact h

theorem renumAux_isEmpty : ∀ (c : Nat) (ls : List (List Char)),
    ((renumAux c ls).map (·.isEmpty)) = ls.map (·.isEmpty) := by
  intro c ls
  induction ls generalizing c with
  | nil => rfl
  | cons a t ih =>
    simp only [renumAux, List.map_cons, renumStep_snd_isEmpty, ih]

theorem renumAux_nofree : ∀ (c : Nat) {ls : List (List Char)},
    (∀ x ∈ ls, '\n' ∉ x) → ∀ y ∈ renumAux c ls, '\n' ∉ y := by
  intro c ls
  induction ls generalizing c with
  | nil => intro _ y hy; exact absurd hy (by simp [renumAux])
  | cons a t ih =>
    intro hls y hy
    rcases List.mem_cons.mp hy with rfl | hy2
    · exact renumStep_snd_nofree (hls a (List.mem_cons_self a t))
    · exact ih _ (fun x hx => hls x (List.mem_cons_of_mem a hx)) y hy2

theorem hasTriple_renumber {l : List Char} (h : hasTriple l = false) :
    hasTriple (renumber l) = false := by
  have hnf : ∀ x ∈ renumAux 0 (splitNL l), '\n' ∉ x :=
    renumAux_nofree 0 splitNL_nofree
  rw [renumber, hasTriple_joinNL _ hnf, renumAux_isEmpty,
    ← hasTriple_joinNL _ splitNL_nofree, joinNL_splitNL]
  exact h

theorem hasTriple_titleStage {title : Option (List Char)} {md : List Char}
    (h : hasTriple md = false)
    (ht : ∀ t, title = some t → '\n' ∉ t ∧ md.take 1 ≠ ['\n']) :
    hasTriple (titleStage title md) = false := by
  cases title with
  | none => exact h
  | some t =>
    obtain ⟨htn, hhd⟩ := ht t rfl
    simp only [titleStage]
    by_cases h0 : t = []
    · rw [if_pos h0]; exact h
    · rw [if_neg h0]
      by_cases hp : (('#' :: ' ' :: t).isPrefixOf
          ((pyStrip md).takeWhile (· ≠ '\n'))) = true
      · rw [if_pos hp]; exact h
      · rw [if_neg hp]
        have hp2 : '\n' ∉ ('#' :: ' ' :: t : List Char) := by
          intro hm
          rcases List.mem_cons.mp hm with h2 | h2
          · exact absurd h2.symm (by decide)
          rcases List.mem_cons.mp h2 with h3 | h3
          · exact absurd h3.symm (by decide)
          · exact htn h3
        rw [hasTriple_append_nofree _ hp2]
        have hmd : leadNL md = 0 := by
          cases md with
          | nil => rfl
          | cons c u =>
            have hc : c ≠ '\n' := by
              intro hc
              subst hc
              exact hhd (by simp)
            exact leadNL_cons_ne u hc
        rw [hasTriple_nl_le1 (by rw [leadNL_cons_nl]; omega),
          hasTriple_nl_le1 (by omega)]
        exact h

theorem hasTriple_lstrip {l : List Char} (h : hasTriple l = false) :
    hasTriple (lstrip l) = false := by
  cases hv : hasTriple (lstrip l) with
  | false => rfl
  | true =>
    have h2 : hasTriple (l.takeWhile isPyWs ++ l.dropWhile isPyWs) = true :=
      hasTriple_append_right _ hv
    rw [List.takeWhile_append_dropWhile] at h2
    rw [h2] at h
    cases h

theorem hasTriple_rstrip {l : List Char} (h : hasTriple l = false) :
    hasTriple (rstrip l) = false := by
  cases hv : hasTriple (rstrip l) with
  | false => rfl
  | true =>
    have h2 : hasTriple (rstrip l ++ (l.reverse.takeWhile isPyWs).reverse) = true :=
      hasTriple_append_left _ hv
    have h3 : rstrip l ++ (l.reverse.takeWhile isPyWs).reverse = l := by
      show (l.reverse.dropWhile isPyWs).reverse ++
        (l.reverse.takeWhile isPyWs).reverse = l
      rw [← List.reverse_append, List.takeWhile_append_dropWhile, List.reverse_reverse]
    rw [h3] at h2
    rw [h2] at h
    cases h

theorem hasTriple_pyStrip {l : List Char} (h : hasTriple l = false) :
    hasTriple (pyStrip l) = false :=
  hasTriple_rstrip (hasTriple_lstrip h)

/-! ## The image blank-line stage preserves the no-triple property -/

theorem take2_shape {x : List Char} {a b : Char} (h : x.take 2 = [a, b]) :
    ∃ w, x = a :: b :: w := by
  cases x with
  | nil => cases h
  | cons c t =>
    cases t with
    | nil => cases h
    | cons d u =>
      have h1 : c = a := (List.cons.injEq .. ▸ h).1
      have h2 : d = b := (List.cons.injEq .. ▸ (List.cons.injEq .. ▸ h).2).1
      exact ⟨u, by rw [h1, h2]⟩

theorem imageBlankLines_inv (l : List Char) :
    (imageBlankLines l).take 2 = l.take 2 ∧
    (hasTriple l = false → hasTriple (imageBlankLines l) = false) := by
  induction l using imageBlankLines.induct
  case case1 rest ih =>
    obtain ⟨iht, ihh⟩ := ih
    have hred : imageBlankLines ('\n' :: '\n' :: '!' :: '[' :: rest) =
        '\n' :: imageBlankLines ('\n' :: '!' :: '[' :: rest) := rfl
    rw [hred]
    have h1 : (imageBlankLines ('\n' :: '!' :: '[' :: rest)).take 1 = ['\n'] := by
      have h2 : (imageBlankLines ('\n' :: '!' :: '[' :: rest)).take 1 =
          ((imageBlankLines ('\n' :: '!' :: '[' :: rest)).take 2).take 1 := by
        rw [List.take_take]
        norm_num
      rw [h2, iht]
      rfl
    constructor
    · show '\n' :: (imageBlankLines ('\n' :: '!' :: '[' :: rest)).take 1 =
        ['\n', '\n']
      rw [h1]
    · intro hT
      have hT2 : hasTriple ('\n' :: '!' :: '[' :: rest) = false :=
        hasTriple_false_tail hT
      have hres := ihh hT2
      obtain ⟨w, hw⟩ := take2_shape iht
      rw [hw]
      rw [hasTriple_nl_le1 (by
        have e1 := leadNL_cons_nl ('!' :: w)
        have e2 := leadNL_cons_ne w (show ('!' : Char) ≠ '\n' by decide)
        omega)]
      rw [← hw]
      exact hres
  case case2 c rest h ih =>
    obtain ⟨iht, ihh⟩ := ih
    have hred : imageBlankLines (c :: '\n' :: '!' :: '[' :: rest) =
        c :: '\n' :: '\n' :: '!' :: '[' :: imageBlankLines rest := by
      have h2 : imageBlankLines (c :: '\n' :: '!' :: '[' :: rest) =
          if c = '\n' then c :: imageBlankLines ('\n' :: '!' :: '[' :: rest)
          else c :: '\n' :: '\n' :: '!' :: '[' :: imageBlankLines rest := rfl
      rw [h2, if_neg h]
    rw [hred]
    constructor
    · rfl
    · intro hT
      have h1 := hasTriple_false_tail hT
      have h2 := hasTriple_false_tail h1
      have h3 := hasTriple_false_tail h2
      have h4 := hasTriple_false_tail h3
      rw [hasTriple_cons_ne _ h]
      rw [hasTriple_nl_le1 (by
        have e1 := leadNL_cons_nl ('!' :: '[' :: imageBlankLines rest)
        have e2 := leadNL_cons_ne ('[' :: imageBlankLines rest)
          (show ('!' : Char) ≠ '\n' by decide)
        omega)]
      rw [hasTriple_nl_le1 (by
        have e2 := leadNL_cons_ne ('[' :: imageBlankLines rest)
          (show ('!' : Char) ≠ '\n' by decide)
        omega)]
      rw [hasTriple_cons_ne _ (by decide), hasTriple_cons_ne _ (by decide)]
      exact ihh h4
  case case3 c rest h1 ih =>
    obtain ⟨iht, ihh⟩ := ih
    have hstep : imageBlankLines (c :: rest) = c :: imageBlankLines rest := by
      conv_lhs => unfold imageBlankLines
      split
      · next c2 r2 heq =>
        exact absurd ((List.cons.injEq .. ▸ heq).2) (h1 r2)
      · next c2 r2 hno heq =>
        have e1 : c2 = c := ((List.cons.injEq .. ▸ heq).1).symm
        have e2 : r2 = rest := ((List.cons.injEq .. ▸ heq).2).symm
        rw [e1, e2]
      · next heq => exact absurd heq (by simp)
    rw [hstep]
    have htake1 : (imageBlankLines rest).take 1 = rest.take 1 := by
      have h2 : (imageBlankLines rest).take 1 =
          ((imageBlankLines rest).take 2).take 1 := by
        rw [List.take_take]
        norm_num
      have h3 : rest.take 1 = (rest.take 2).take 1 := by
        rw [List.take_take]
        norm_num
      rw [h2, iht, ← h3]
    constructor
    · show c :: (imageBlankLines rest).take 1 = c :: rest.take 1
      rw [htake1]
    · intro hT
      have hTr := hasTriple_false_tail hT
      have hres := ihh hTr
      by_cases hc : c = '\n'
      · subst hc
        have hle : leadNL (imageBlankLines rest) ≤ 1 := by
          by_contra hgt
          have hge : 2 ≤ leadNL (imageBlankLines rest) := by omega
          obtain ⟨w, hw⟩ := leadNL_ge2_shape hge
          have h2 : rest.take 2 = ['\n', '\n'] := by
            rw [← iht, hw]
            rfl
          obtain ⟨w2, hw2⟩ := take2_shape h2
          rw [hw2, hasTriple_three] at hT
          cases hT
        rw [hasTriple_nl_le1 hle]
        exact hres
      · rw [hasTriple_cons_ne _ hc]
        exact hres
  case case4 => exact ⟨rfl, fun h => h⟩



/-- C3: amended no-triple property. The collapse pass alone does not make the
claim true for all inputs (tag stripping after it can rebuild a long newline
run, as the counterexample shows), but on documents with no HTML tag or
entity material — no less-than sign and no ampersand — and a title that is
absent or newline-free and not prepended in front of a leading newline, the
normalized output contains no run of three or more consecutive newlines. -/
theorem c3_no_triple_on_entity_free_inputs (s : List Char)
    (title : Option (List Char)) (hlt : '<' ∉ s) (hamp : '&' ∉ s)
    (ht : ∀ t, title = some t → '\n' ∉ t ∧ (preTitle s).take 1 ≠ ['\n']) :
    hasTriple (cleanMarkdown s title) = false := by
  have h1 : '<' ∉ stripFrontmatter s := fun h => hlt (stripFrontmatter_mem h)
  have h1a : '&' ∉ stripFrontmatter s := fun h => hamp (stripFrontmatter_mem h)
  have h2 : stripComments (stripFrontmatter s) = stripFrontmatter s :=
    stripComments_noLt h1
  have hXT : hasTriple (collapseNewlines (stripFrontmatter s)) = false :=
    hasTriple_collapse _
  have hXlt : '<' ∉ collapseNewlines (stripFrontmatter s) :=
    fun h => h1 (collapse_mem h)
  have hXamp : '&' ∉ collapseNewlines (stripFrontmatter s) :=
    fun h => h1a (collapse_mem h)
  have hFT : hasTriple (fixHeaders (collapseNewlines (stripFrontmatter s))) = false :=
    hasTriple_fixHeaders hXT
  have hFlt : '<' ∉ fixHeaders (collapseNewlines (stripFrontmatter s)) := by
    intro h
    rcases mem_fixHeaders h with h3 | h3 | h3 | h3
    · exact hXlt h3
    · exact absurd h3 (by decide)
    · exact absurd h3 (by decide)
    · exact absurd h3 (by decide)
  have hFamp : '&' ∉ fixHeaders (collapseNewlines (stripFrontmatter s)) := by
    intro h
    rcases mem_fixHeaders h with h3 | h3 | h3 | h3
    · exact hXamp h3
    · exact absurd h3 (by decide)
    · exact absurd h3 (by decide)
    · exact absurd h3 (by decide)
  have hpre : preTitle s =
      imageBlankLines (fixHeaders (collapseNewlines (stripFrontmatter s))) := by
    unfold preTitle
    rw [h2, stripTags_noLt hFlt, unescapeHtml_noAmp hFamp]
  have hibT : hasTriple
      (imageBlankLines (fixHeaders (collapseNewlines (stripFrontmatter s)))) =
      false :=
    (imageBlankLines_inv _).2 hFT
  have htitle2 : ∀ t, title = some t → '\n' ∉ t ∧
      (imageBlankLines (fixHeaders (collapseNewlines
        (stripFrontmatter s)))).take 1 ≠ ['\n'] := by
    intro t hsome
    obtain ⟨a, b⟩ := ht t hsome
    exact ⟨a, by rwa [hpre] at b⟩
  have hTS := hasTriple_titleStage hibT htitle2
  have hRN := hasTriple_renumber hTS
  have hPS := hasTriple_pyStrip hRN
  show hasTriple (pyStrip (renumber (titleStage title (preTitle s)))) = false
  rwa [hpre]

/-- Witness for C3: a document with a four-newline run and no tag or entity
characters, normalized with title T, comes out with no triple newline. -/
theorem c3_no_triple_on_entity_free_inputs_witness :
    hasTriple (cleanMarkdown (chars "a\n\n\n\nb") (some (chars "T"))) = false :=
  c3_no_triple_on_entity_free_inputs (chars "a\n\n\n\nb") (some (chars "T"))
    (by decide) (by decide)
    (fun t hsome => by
      injection hsome with h
      subst h
      exact ⟨by decide, by decide⟩)



/-! ## Header-spacing machinery for C9 -/

theorem takeWhile_ne_self {y : List Char} (h : '\n' ∉ y) :
    y.takeWhile (· ≠ '\n') = y := by
  induction y with
  | nil => rfl
  | cons c t ih =>
    have hc : c ≠ '\n' := fun hx => h (hx ▸ List.mem_cons_self c t)
    have ht : '\n' ∉ t := fun hx => h (List.mem_cons_of_mem c hx)
    rw [List.takeWhile_cons_of_pos (by simpa using hc), ih ht]

theorem takeWhile_ne_append {a : List Char} (x : List Char) (h : '\n' ∉ a) :
    (a ++ '\n' :: x).takeWhile (· ≠ '\n') = a := by
  induction a with
  | nil => simp [List.takeWhile_cons]
  | cons c t ih =>
    have hc : c ≠ '\n' := fun hx => h (hx ▸ List.mem_cons_self c t)
    have ht : '\n' ∉ t := fun hx => h (List.mem_cons_of_mem c hx)
    rw [List.cons_append, List.takeWhile_cons_of_pos (by simpa using hc), ih ht]

theorem lineOKc_congr {y1 y2 : List Char}
    (h : y1.takeWhile (· ≠ '\n') = y2.takeWhile (· ≠ '\n')) :
    lineOKc y1 = lineOKc y2 := by
  simp only [lineOKc]
  rw [h]

theorem lineOKc_nil : lineOKc [] = true := rfl

theorem lineOKc_nl (x : List Char) : lineOKc ('\n' :: x) = true := by
  simp only [lineOKc, List.takeWhile_cons]
  norm_num

theorem lineOKc_cons_nohash {c : Char} (h : c ≠ '#') (x : List Char) :
    lineOKc (c :: x) = true := by
  by_cases hc : c = '\n'
  · subst hc; exact lineOKc_nl x
  · simp only [lineOKc, List.takeWhile_cons]
    simp only [hc, decide_not]
    simp [h]

theorem lineOKc_hash_space (t : List Char) : lineOKc ('#' :: ' ' :: t) = true := by
  have h1 : ('#' :: ' ' :: t).takeWhile (· ≠ '\n') =
      '#' :: ' ' :: t.takeWhile (· ≠ '\n') := by
    rw [List.takeWhile_cons_of_pos (by decide), List.takeWhile_cons_of_pos (by decide)]
  simp only [lineOKc, h1]
  have h2 : ('#' :: ' ' :: t.takeWhile (· ≠ '\n')).takeWhile (· = '#') = ['#'] := by
    rw [List.takeWhile_cons_of_pos (by decide), List.takeWhile_cons_of_neg (by decide)]
  rw [h2]
  rfl

theorem gAux_false_nofree {x : List Char} (h : '\n' ∉ x) :
    gAux false x = true := by
  induction x with
  | nil => rfl
  | cons c t ih =>
    have hc : c ≠ '\n' := fun hx => h (hx ▸ List.mem_cons_self c t)
    have ht : '\n' ∉ t := fun hx => h (List.mem_cons_of_mem c hx)
    show ((!false || lineOKc (c :: t)) && gAux (c == '\n') t) = true
    have hcc : (c == '\n') = false := by simpa using hc
    rw [hcc, ih ht]
    simp

theorem gAux_false_seg {a : List Char} (x : List Char) (h : '\n' ∉ a) :
    gAux false (a ++ '\n' :: x) = gAux true x := by
  induction a with
  | nil =>
    show ((!false || lineOKc ('\n' :: x)) && gAux ('\n' == '\n') x) = gAux true x
    rw [lineOKc_nl]
    simp
  | cons c t ih =>
    have hc : c ≠ '\n' := fun hx => h (hx ▸ List.mem_cons_self c t)
    have ht : '\n' ∉ t := fun hx => h (List.mem_cons_of_mem c hx)
    show ((!false || lineOKc (c :: (t ++ '\n' :: x))) &&
      gAux (c == '\n') (t ++ '\n' :: x)) = gAux true x
    have hcc : (c == '\n') = false := by simpa using hc
    rw [hcc, ih ht]
    simp

theorem gAux_true_seg {a : List Char} (x : List Char) (h : '\n' ∉ a) :
    gAux true (a ++ '\n' :: x) = (lineOKc a && gAux true x) := by
  cases a with
  | nil =>
    show ((!true || lineOKc ('\n' :: x)) && gAux ('\n' == '\n') x) =
      (lineOKc [] && gAux true x)
    rw [lineOKc_nl, lineOKc_nil]
    simp
  | cons c t =>
    have hc : c ≠ '\n' := fun hx => h (hx ▸ List.mem_cons_self c t)
    have ht : '\n' ∉ t := fun hx => h (List.mem_cons_of_mem c hx)
    show ((!true || lineOKc (c :: (t ++ '\n' :: x))) &&
      gAux (c == '\n') (t ++ '\n' :: x)) = (lineOKc (c :: t) && gAux true x)
    have hcc : (c == '\n') = false := by simpa using hc
    rw [hcc, gAux_false_seg x ht]
    have hcong : lineOKc (c :: (t ++ '\n' :: x)) = lineOKc (c :: t) := by
      apply lineOKc_congr
      rw [List.takeWhile_cons_of_pos (by simpa using hc),
        List.takeWhile_cons_of_pos (by simpa using hc)]
      rw [takeWhile_ne_append x ht, takeWhile_ne_self ht]
    rw [hcong]
    simp

theorem gAux_true_line {a : List Char} (h : '\n' ∉ a) :
    gAux true a = lineOKc a := by
  cases a with
  | nil => rfl
  | cons c t =>
    have hc : c ≠ '\n' := fun hx => h (hx ▸ List.mem_cons_self c t)
    have ht : '\n' ∉ t := fun hx => h (List.mem_cons_of_mem c hx)
    show ((!true || lineOKc (c :: t)) && gAux (c == '\n') t) = lineOKc (c :: t)
    have hcc : (c == '\n') = false := by simpa using hc
    rw [hcc, gAux_false_nofree ht]
    simp

theorem gAux_join : ∀ (ls : List (List Char)), (∀ x ∈ ls, '\n' ∉ x) →
    gAux true (joinNL ls) = ls.all lineOKc := by
  intro ls
  induction ls with
  | nil => intro _; rfl
  | cons a tl ih =>
    intro hls
    have ha : '\n' ∉ a := hls a (List.mem_cons_self a tl)
    have htl : ∀ x ∈ tl, '\n' ∉ x := fun x hx => hls x (List.mem_cons_of_mem a hx)
    cases tl with
    | nil =>
      show gAux true a = (lineOKc a && true)
      rw [gAux_true_line ha]
      simp
    | cons b tl2 =>
      show gAux true (a ++ '\n' :: joinNL (b :: tl2)) =
        (lineOKc a && (b :: tl2).all lineOKc)
      rw [gAux_true_seg _ ha, ih htl]



theorem takeWhile_hash_replicate (n : Nat) (z : List Char) :
    (List.replicate n '#' ++ ' ' :: z).takeWhile (· = '#') = List.replicate n '#' := by
  induction n with
  | zero =>
    show ((' ' :: z).takeWhile (· = '#')) = []
    rw [List.takeWhile_cons_of_neg (by decide)]
  | succ m ih =>
    show (('#' :: (List.replicate m '#' ++ ' ' :: z)).takeWhile (· = '#')) =
      '#' :: List.replicate m '#'
    rw [List.takeWhile_cons_of_pos (by decide), ih]

theorem lineOKc_hash_run (n : Nat) {z : List Char} (hz : '\n' ∉ z) :
    lineOKc (List.replicate n '#' ++ ' ' :: z) = true := by
  have hnf : '\n' ∉ List.replicate n '#' ++ ' ' :: z := by
    intro h
    rcases List.mem_append.mp h with h2 | h2
    · exact absurd (List.eq_of_mem_replicate h2) (by decide)
    · rcases List.mem_cons.mp h2 with h3 | h3
      · exact absurd h3 (by decide)
      · exact hz h3
  simp only [lineOKc, takeWhile_ne_self hnf, takeWhile_hash_replicate,
    List.length_replicate]
  cases n with
  | zero => rfl
  | succ m =>
    rw [if_neg (by omega)]
    have hd : (List.replicate (m + 1) '#' ++ ' ' :: z).drop (m + 1) = ' ' :: z := by
      have h2 := List.drop_left (List.replicate (m + 1) '#') (' ' :: z)
      rwa [List.length_replicate] at h2
    rw [hd]
    rfl

theorem fixHeaderLine_lineOK {x : List Char} (h : '\n' ∉ x) :
    lineOKc (fixHeaderLine x) = true := by
  have hdropnf : '\n' ∉ x.drop (x.takeWhile (· = '#')).length :=
    fun hm => h (List.drop_subset _ x hm)
  have hself : lineOKc x =
      (if (x.takeWhile (· = '#')).length = 0 then true
       else match x.drop (x.takeWhile (· = '#')).length with
         | [] => true
         | c :: _ => c == ' ') := by
    simp only [lineOKc, takeWhile_ne_self h]
  simp only [fixHeaderLine]
  split
  · next hk =>
    rw [hself, if_pos hk]
  · next hk =>
    split
    · next heq =>
      split
      · exact lineOKc_hash_run _ (by decide)
      · rw [hself, if_neg hk, heq]
    · next c0 w heq =>
      split
      · next hsp =>
        split
        · exact lineOKc_hash_run _ (by
            intro hm
            rcases List.mem_cons.mp hm with h2 | h2
            · exact absurd h2 (by decide)
            · exact hdropnf h2)
        · rw [hself, if_neg hk, heq, hsp]
          rfl
      · next hsp =>
        refine lineOKc_hash_run _ ?_
        intro hm
        exact hdropnf hm

theorem renumStep_snd_lineOK {c : Nat} {l : List Char} (h : lineOKc l = true) :
    lineOKc (renumStep c l).2 = true := by
  simp only [renumStep]
  split
  · next n r hsome =>
    cases hnat : natLit (if n = 1 then c + 1 else n) with
    | nil =>
      show lineOKc ([] ++ '.' :: ' ' :: r) = true
      exact lineOKc_cons_nohash (by decide) _
    | cons d u =>
      have hd : isDigitCh d = true := by
        refine natLit_digits (if n = 1 then c + 1 else n) d ?_
        rw [hnat]
        exact List.mem_cons_self d u
      have hdh : d ≠ '#' := by
        intro he
        rw [he] at hd
        exact absurd hd (by decide)
      show lineOKc ((d :: u) ++ '.' :: ' ' :: r) = true
      rw [List.cons_append]
      exact lineOKc_cons_nohash hdh _
  · exact h

theorem renumAux_lineOK : ∀ (c : Nat) {ls : List (List Char)},
    ls.all lineOKc = true → (renumAux c ls).all lineOKc = true := by
  intro c ls
  induction ls generalizing c with
  | nil => intro _; rfl
  | cons a t ih =>
    intro hall
    simp only [List.all_cons, Bool.and_eq_true] at hall
    simp only [renumAux, List.all_cons, Bool.and_eq_true]
    exact ⟨renumStep_snd_lineOK hall.1,
      ih _ hall.2⟩

theorem headerSpaced_fixHeaders (l : List Char) :
    headerSpaced (fixHeaders l) = true := by
  show gAux true (joinNL ((splitNL l).map fixHeaderLine)) = true
  have hnf : ∀ x ∈ (splitNL l).map fixHeaderLine, '\n' ∉ x := by
    intro x hx
    obtain ⟨y, hy, rfl⟩ := List.mem_map.mp hx
    exact fixHeaderLine_nofree (splitNL_nofree y hy)
  rw [gAux_join _ hnf]
  simp only [List.all_eq_true]
  intro x hx
  obtain ⟨y, hy, rfl⟩ := List.mem_map.mp hx
  exact fixHeaderLine_lineOK (splitNL_nofree y hy)

theorem headerSpaced_renumber {l : List Char} (h : headerSpaced l = true) :
    headerSpaced (renumber l) = true := by
  have hall : (splitNL l).all lineOKc = true := by
    rw [← gAux_join _ splitNL_nofree, joinNL_splitNL]
    exact h
  show gAux true (joinNL (renumAux 0 (splitNL l))) = true
  rw [gAux_join _ (renumAux_nofree 0 splitNL_nofree)]
  exact renumAux_lineOK 0 hall

theorem headerSpaced_titleStage {title : Option (List Char)} {md : List Char}
    (h : headerSpaced md = true)
    (ht : ∀ t, title = some t → '\n' ∉ t) :
    headerSpaced (titleStage title md) = true := by
  cases title with
  | none => exact h
  | some t =>
    have htn : '\n' ∉ t := ht t rfl
    simp only [titleStage]
    by_cases h0 : t = []
    · rw [if_pos h0]; exact h
    · rw [if_neg h0]
      by_cases hp : (('#' :: ' ' :: t).isPrefixOf
          ((pyStrip md).takeWhile (· ≠ '\n'))) = true
      · rw [if_pos hp]; exact h
      · rw [if_neg hp]
        show gAux true (('#' :: ' ' :: t) ++ '\n' :: ('\n' :: md)) = true
        rw [gAux_true_seg _ (by
          intro hm
          rcases List.mem_cons.mp hm with h2 | h2
          · exact absurd h2.symm (by decide)
          rcases List.mem_cons.mp h2 with h3 | h3
          · exact absurd h3.symm (by decide)
          · exact htn h3)]
        rw [lineOKc_hash_space]
        have h2 : gAux true ('\n' :: md) = (lineOKc [] && gAux true md) :=
          gAux_true_seg md (List.not_mem_nil _)
        rw [h2, lineOKc_nil]
        rw [show gAux true md = true from h]
        decide



/-! ## The header-spacing property is closed under prefixes and final stripping -/

theorem takeWhile_take (p : Char → Bool) : ∀ (n : Nat) (y : List Char),
    (y.take n).takeWhile p = (y.takeWhile p).take n := by
  intro n y
  induction y generalizing n with
  | nil => simp
  | cons c t ih =>
    cases n with
    | zero => simp
    | succ m =>
      rw [List.take_succ_cons]
      by_cases hp : p c = true
      · rw [List.takeWhile_cons_of_pos hp, List.takeWhile_cons_of_pos hp,
          List.take_succ_cons, ih]
      · rw [List.takeWhile_cons_of_neg (by simpa using hp),
          List.takeWhile_cons_of_neg (by simpa using hp)]
        simp

theorem lineOKc_take {y : List Char} (h : lineOKc y = true) (n : Nat) :
    lineOKc (y.take n) = true := by
  simp only [lineOKc] at h ⊢
  rw [takeWhile_take, takeWhile_take, List.length_take]
  by_cases h0 : min n (((y.takeWhile (· ≠ '\n')).takeWhile (· = '#')).length) = 0
  · rw [if_pos h0]
  · rw [if_neg h0]
    have hk : (((y.takeWhile (· ≠ '\n')).takeWhile (· = '#')).length) ≠ 0 := by
      omega
    rw [if_neg hk] at h
    by_cases hcmp : n ≤ ((y.takeWhile (· ≠ '\n')).takeWhile (· = '#')).length
    · have hmin : min n (((y.takeWhile (· ≠ '\n')).takeWhile (· = '#')).length) =
          n := by omega
      rw [hmin, List.drop_take]
      have hz : n - n = 0 := by omega
      rw [hz, List.take_zero]
    · have hmin : min n (((y.takeWhile (· ≠ '\n')).takeWhile (· = '#')).length) =
          ((y.takeWhile (· ≠ '\n')).takeWhile (· = '#')).length := by omega
      rw [hmin, List.drop_take]
      cases hd : (y.takeWhile (· ≠ '\n')).drop
          (((y.takeWhile (· ≠ '\n')).takeWhile (· = '#')).length) with
      | nil => rw [List.take_nil]
      | cons c0 w =>
        rw [hd] at h
        cases hnk : n - (((y.takeWhile (· ≠ '\n')).takeWhile (· = '#')).length) with
        | zero => omega
        | succ m =>
          rw [List.take_succ_cons]
          exact h

theorem gAux_take : ∀ (x : List Char) (n : Nat) (b : Bool), gAux b x = true →
    gAux b (x.take n) = true := by
  intro x
  induction x with
  | nil => intro n b h; simpa using h
  | cons c t ih =>
    intro n b h
    cases n with
    | zero => rfl
    | succ m =>
      rw [List.take_succ_cons]
      have e : gAux b (c :: t) = ((!b || lineOKc (c :: t)) && gAux (c == '\n') t) :=
        rfl
      rw [e] at h
      rw [Bool.and_eq_true] at h
      obtain ⟨h1, h2⟩ := h
      have h3 : (!b || lineOKc (c :: t.take m)) = true := by
        cases hbv : !b with
        | true => simp
        | false =>
          rw [hbv, Bool.false_or] at h1
          rw [Bool.false_or]
          have h4 := lineOKc_take h1 (m + 1)
          rwa [List.take_succ_cons] at h4
      show ((!b || lineOKc (c :: t.take m)) && gAux (c == '\n') (t.take m)) = true
      rw [h3, ih m _ h2]
      rfl

theorem rstrip_decomp (l : List Char) :
    rstrip l ++ (l.reverse.takeWhile isPyWs).reverse = l := by
  show (l.reverse.dropWhile isPyWs).reverse ++ (l.reverse.takeWhile isPyWs).reverse = l
  rw [← List.reverse_append, List.takeWhile_append_dropWhile, List.reverse_reverse]

theorem rstrip_eq_take (l : List Char) : rstrip l = l.take (rstrip l).length := by
  have h := List.take_left (rstrip l) ((l.reverse.takeWhile isPyWs).reverse)
  rw [rstrip_decomp l] at h
  exact h.symm

theorem headerSpaced_pyStrip {l : List Char} (h : headerSpaced l = true)
    (hws : ∀ c ∈ l.take 1, isPyWs c = false) :
    headerSpaced (pyStrip l) = true := by
  have hl : lstrip l = l := by
    cases l with
    | nil => rfl
    | cons c t =>
      exact lstrip_cons_neg t (hws c (by simp))
  show gAux true (rstrip (lstrip l)) = true
  rw [hl, rstrip_eq_take l]
  exact gAux_take l _ true h

/-! ## The image blank-line stage preserves header spacing -/

theorem imageBlankLines_gAux (l : List Char) :
    ((imageBlankLines l).takeWhile (· ≠ '\n') = l.takeWhile (· ≠ '\n')) ∧
    (∀ b, gAux b l = true → gAux b (imageBlankLines l) = true) := by
  induction l using imageBlankLines.induct
  case case1 rest ih =>
    obtain ⟨iht, ihg⟩ := ih
    have hred : imageBlankLines ('\n' :: '\n' :: '!' :: '[' :: rest) =
        '\n' :: imageBlankLines ('\n' :: '!' :: '[' :: rest) := rfl
    rw [hred]
    constructor
    · rw [List.takeWhile_cons_of_neg (by decide),
        List.takeWhile_cons_of_neg (by decide)]
    · intro b hb
      have hb2 : gAux true ('\n' :: '!' :: '[' :: rest) = true := by
        rw [show gAux b ('\n' :: '\n' :: '!' :: '[' :: rest) =
          ((!b || lineOKc ('\n' :: '\n' :: '!' :: '[' :: rest)) &&
            gAux true ('\n' :: '!' :: '[' :: rest)) from rfl] at hb
        rw [Bool.and_eq_true] at hb
        exact hb.2
      have hres := ihg true hb2
      show ((!b || lineOKc ('\n' :: imageBlankLines ('\n' :: '!' :: '[' :: rest))) &&
        gAux true (imageBlankLines ('\n' :: '!' :: '[' :: rest))) = true
      rw [lineOKc_nl, hres]
      simp
  case case2 c rest h ih =>
    obtain ⟨iht, ihg⟩ := ih
    have hcc : (c == '\n') = false := by simpa using h
    have hred : imageBlankLines (c :: '\n' :: '!' :: '[' :: rest) =
        c :: '\n' :: '\n' :: '!' :: '[' :: imageBlankLines rest := by
      have h2 : imageBlankLines (c :: '\n' :: '!' :: '[' :: rest) =
          if c = '\n' then c :: imageBlankLines ('\n' :: '!' :: '[' :: rest)
          else c :: '\n' :: '\n' :: '!' :: '[' :: imageBlankLines rest := rfl
      rw [h2, if_neg h]
    rw [hred]
    have hL : (c :: '\n' :: '\n' :: '!' :: '[' :: imageBlankLines rest).takeWhile
        (· ≠ '\n') = [c] := by
      rw [List.takeWhile_cons_of_pos (by simpa using h)]
      rw [List.takeWhile_cons_of_neg (by decide)]
    have hR : (c :: '\n' :: '!' :: '[' :: rest).takeWhile (· ≠ '\n') = [c] := by
      rw [List.takeWhile_cons_of_pos (by simpa using h)]
      rw [List.takeWhile_cons_of_neg (by decide)]
    constructor
    · rw [hL, hR]
    · intro b hb
      rw [show gAux b (c :: '\n' :: '!' :: '[' :: rest) =
        ((!b || lineOKc (c :: '\n' :: '!' :: '[' :: rest)) &&
          gAux (c == '\n') ('\n' :: '!' :: '[' :: rest)) from rfl, hcc] at hb
      rw [show gAux false ('\n' :: '!' :: '[' :: rest) =
        ((!false || lineOKc ('\n' :: '!' :: '[' :: rest)) &&
          gAux true ('!' :: '[' :: rest)) from rfl] at hb
      rw [show gAux true ('!' :: '[' :: rest) =
        ((!true || lineOKc ('!' :: '[' :: rest)) && gAux false ('[' :: rest)) from
        rfl, lineOKc_cons_nohash (by decide) ('[' :: rest)] at hb
      rw [show gAux false ('[' :: rest) =
        ((!false || lineOKc ('[' :: rest)) && gAux false rest) from rfl] at hb
      simp only [Bool.not_true, Bool.not_false, Bool.true_or, Bool.false_or,
        Bool.true_and, Bool.and_eq_true] at hb
      obtain ⟨hb1, hb3⟩ := hb
      have hgr := ihg false hb3
      have hcong : lineOKc (c :: '\n' :: '\n' :: '!' :: '[' :: imageBlankLines rest)
          = lineOKc (c :: '\n' :: '!' :: '[' :: rest) := by
        apply lineOKc_congr
        rw [hL, hR]
      show ((!b || lineOKc (c :: '\n' :: '\n' :: '!' :: '[' :: imageBlankLines rest))
        && gAux (c == '\n')
          ('\n' :: '\n' :: '!' :: '[' :: imageBlankLines rest)) = true
      rw [hcc, hcong]
      rw [show gAux false ('\n' :: '\n' :: '!' :: '[' :: imageBlankLines rest) =
        ((!false || lineOKc ('\n' :: '\n' :: '!' :: '[' :: imageBlankLines rest)) &&
          gAux true ('\n' :: '!' :: '[' :: imageBlankLines rest)) from rfl]
      rw [show gAux true ('\n' :: '!' :: '[' :: imageBlankLines rest) =
        ((!true || lineOKc ('\n' :: '!' :: '[' :: imageBlankLines rest)) &&
          gAux true ('!' :: '[' :: imageBlankLines rest)) from rfl]
      rw [show gAux true ('!' :: '[' :: imageBlankLines rest) =
        ((!true || lineOKc ('!' :: '[' :: imageBlankLines rest)) &&
          gAux false ('[' :: imageBlankLines rest)) from rfl]
      rw [show gAux false ('[' :: imageBlankLines rest) =
        ((!false || lineOKc ('[' :: imageBlankLines rest)) &&
          gAux false (imageBlankLines rest)) from rfl]
      rw [lineOKc_nl, lineOKc_nl, lineOKc_cons_nohash (show ('!' : Char) ≠ '#' by decide)
        ('[' :: imageBlankLines rest), hgr, hb1]
      simp
  case case3 c rest h1 ih =>
    obtain ⟨iht, ihg⟩ := ih
    have hstep : imageBlankLines (c :: rest) = c :: imageBlankLines rest := by
      conv_lhs => unfold imageBlankLines
      split
      · next c2 r2 heq =>
        exact absurd ((List.cons.injEq .. ▸ heq).2) (h1 r2)
      · next c2 r2 hno heq =>
        have e1 : c2 = c := ((List.cons.injEq .. ▸ heq).1).symm
        have e2 : r2 = rest := ((List.cons.injEq .. ▸ heq).2).symm
        rw [e1, e2]
      · next heq => exact absurd heq (by simp)
    rw [hstep]
    have htw : (c :: imageBlankLines rest).takeWhile (· ≠ '\n') =
        (c :: rest).takeWhile (· ≠ '\n') := by
      by_cases hc : c = '\n'
      · subst hc
        have e1 : (('\n' :: imageBlankLines rest).takeWhile (· ≠ '\n')) =
            ([] : List Char) := List.takeWhile_cons_of_neg (by decide)
        have e2 : (('\n' :: rest).takeWhile (· ≠ '\n')) = ([] : List Char) :=
          List.takeWhile_cons_of_neg (by decide)
        rw [e1, e2]
      · have e1 : ((c :: imageBlankLines rest).takeWhile (· ≠ '\n')) =
            c :: (imageBlankLines rest).takeWhile (· ≠ '\n') :=
          List.takeWhile_cons_of_pos (by simpa using hc)
        have e2 : ((c :: rest).takeWhile (· ≠ '\n')) =
            c :: rest.takeWhile (· ≠ '\n') :=
          List.takeWhile_cons_of_pos (by simpa using hc)
        rw [e1, e2, iht]
    have hcong : lineOKc (c :: imageBlankLines rest) = lineOKc (c :: rest) :=
      lineOKc_congr htw
    constructor
    · exact htw
    · intro b hb
      rw [show gAux b (c :: rest) =
        ((!b || lineOKc (c :: rest)) && gAux (c == '\n') rest) from rfl] at hb
      rw [Bool.and_eq_true] at hb
      obtain ⟨hb1, hb2⟩ := hb
      show ((!b || lineOKc (c :: imageBlankLines rest)) &&
        gAux (c == '\n') (imageBlankLines rest)) = true
      rw [hcong, hb1, ihg _ hb2]
      rfl
  case case4 => exact ⟨rfl, fun b h => h⟩



/-- C9: amended header-spacing property. The header pass guarantees at least
one space (not exactly one: pre-existing extra spaces survive, as the
counterexample shows) between a leading hash run and the following text.
On documents with no '<' and no '&' (so the tag and entity passes are the
identity), with a title that is absent or newline-free, and whose renumbered
document does not start with a whitespace character (so the final strip
cannot promote an indented hash to line start), every line of the output
beginning with a run of hashes has a space or end of line directly after
the run. -/
theorem c9_hash_run_spaced (s : List Char) (title : Option (List Char))
    (hlt : '<' ∉ s) (hamp : '&' ∉ s)
    (ht : ∀ t, title = some t → '\n' ∉ t)
    (hws : ∀ c ∈ (renumber (titleStage title (preTitle s))).take 1,
      isPyWs c = false) :
    headerSpaced (cleanMarkdown s title) = true := by
  have h1 : '<' ∉ stripFrontmatter s := fun h => hlt (stripFrontmatter_mem h)
  have h1a : '&' ∉ stripFrontmatter s := fun h => hamp (stripFrontmatter_mem h)
  have h2 : stripComments (stripFrontmatter s) = stripFrontmatter s :=
    stripComments_noLt h1
  have hXlt : '<' ∉ collapseNewlines (stripFrontmatter s) :=
    fun h => h1 (collapse_mem h)
  have hXamp : '&' ∉ collapseNewlines (stripFrontmatter s) :=
    fun h => h1a (collapse_mem h)
  have hFlt : '<' ∉ fixHeaders (collapseNewlines (stripFrontmatter s)) := by
    intro h
    rcases mem_fixHeaders h with h3 | h3 | h3 | h3
    · exact hXlt h3
    · exact absurd h3 (by decide)
    · exact absurd h3 (by decide)
    · exact absurd h3 (by decide)
  have hFamp : '&' ∉ fixHeaders (collapseNewlines (stripFrontmatter s)) := by
    intro h
    rcases mem_fixHeaders h with h3 | h3 | h3 | h3
    · exact hXamp h3
    · exact absurd h3 (by decide)
    · exact absurd h3 (by decide)
    · exact absurd h3 (by decide)
  have hpre : preTitle s =
      imageBlankLines (fixHeaders (collapseNewlines (stripFrontmatter s))) := by
    unfold preTitle
    rw [h2, stripTags_noLt hFlt, unescapeHtml_noAmp hFamp]
  have hF := headerSpaced_fixHeaders (collapseNewlines (stripFrontmatter s))
  have hib : headerSpaced (imageBlankLines (fixHeaders
      (collapseNewlines (stripFrontmatter s)))) = true :=
    (imageBlankLines_gAux
      (fixHeaders (collapseNewlines (stripFrontmatter s)))).2 true hF
  have hTS : headerSpaced (titleStage title (imageBlankLines (fixHeaders
      (collapseNewlines (stripFrontmatter s))))) = true :=
    headerSpaced_titleStage hib ht
  have hRN := headerSpaced_renumber hTS
  have hws2 : ∀ c ∈ (renumber (titleStage title (imageBlankLines (fixHeaders
      (collapseNewlines (stripFrontmatter s)))))).take 1, isPyWs c = false := by
    intro c hc
    apply hws
    rwa [hpre]
  have hfin := headerSpaced_pyStrip hRN hws2
  show headerSpaced (pyStrip (renumber (titleStage title (preTitle s)))) = true
  rw [hpre]
  exact hfin

/-- Witness for C9: normalizing a missing-space double-hash header with a
title yields a document whose every hash-led line has a space after the run. -/
theorem c9_hash_run_spaced_witness :
    headerSpaced (cleanMarkdown (chars "##x\nbody") (some (chars "T"))) = true :=
  c9_hash_run_spaced (chars "##x\nbody") (some (chars "T"))
    (by decide) (by decide)
    (fun t hsome => by
      injection hsome with h
      subst h
      decide)
    (by decide)



end Docmost
